import Mathlib

/-!
Verification development for the ZDW codec (adobe/zdw, `src/cplusplus`).

The definitions below are a shallow embedding of the C++ sources:
`dictionary.cpp`, `stringheap.cpp`, `getnextrow.cpp`, `ConvertToZDW.cpp`
(encoder) and `UnconvertFromZDW.cpp` (decoder).  Machine integers are
modelled as `Nat` with explicit byte/width arithmetic where the code
truncates; `FILE*` streams are modelled as `List Nat` byte lists; fallible
operations return `Except`/`Option`.
-/

namespace ZDW

/-! ## Bytes and little-endian helpers -/

/-- `n` little-endian bytes of `v` (the low `n` bytes of a machine word,
as written by `fwrite(val.c, n, 1, f)` on a little-endian host). -/
def leBytes : Nat → Nat → List Nat
  | 0, _ => []
  | n + 1, v => (v % 256) :: leBytes n (v / 256)

/-- Read back a little-endian byte list as a number. -/
def leVal : List Nat → Nat
  | [] => 0
  | b :: bs => b + 256 * leVal bs

/-- Number of bytes needed to store `v`: the
`while (val >= 256) { ++size; val /= 256; }` loop of
`ConvertToZDW::writeLookupColumnStats` and `Dictionary::getBytesInOffset`. -/
def bytesFor (v : Nat) : Nat :=
  if v < 256 then 1 else 1 + bytesFor (v / 256)
  termination_by v
  decreasing_by
    simp only [Nat.div_lt_iff_lt_mul (by norm_num : 0 < 256)]
    omega

theorem leVal_leBytes (n v : Nat) (h : v < 256 ^ n) : leVal (leBytes n v) = v := by
  induction n generalizing v with
  | zero => simp [leBytes, leVal]; omega
  | succ n ih =>
    simp only [leBytes, leVal]
    rw [ih (v / 256) (by
      have : 256 ^ (n + 1) = 256 ^ n * 256 := by ring
      rw [this] at h
      exact Nat.div_lt_of_lt_mul (by omega))]
    omega

theorem leBytes_length (n v : Nat) : (leBytes n v).length = n := by
  induction n generalizing v with
  | zero => rfl
  | succ n ih => simp [leBytes, ih]

/-! ## Column types (`zdw_column_type_constants.h`) -/

/-- Column types stored in the ZDW schema.  Numbers per
`zdw_column_type_constants.h`. -/
inductive ColType
  | varchar       -- 0
  | text          -- 1
  | datetime      -- 2
  | char2         -- 3
  | visidLow      -- 4
  | visidHigh     -- 5
  | char1         -- 6
  | tiny          -- 7
  | short         -- 8
  | long          -- 9
  | longlong      -- 10
  | decimal       -- 11
  | tinySigned    -- 12
  | shortSigned   -- 13
  | longSigned    -- 14
  | longlongSigned -- 15
  | tinytext      -- 16
  | mediumtext    -- 17
  | longtext      -- 18
  deriving DecidableEq, Repr

/-- The on-wire type code byte. -/
def ColType.code : ColType → Nat
  | .varchar => 0
  | .text => 1
  | .datetime => 2
  | .char2 => 3
  | .visidLow => 4
  | .visidHigh => 5
  | .char1 => 6
  | .tiny => 7
  | .short => 8
  | .long => 9
  | .longlong => 10
  | .decimal => 11
  | .tinySigned => 12
  | .shortSigned => 13
  | .longSigned => 14
  | .longlongSigned => 15
  | .tinytext => 16
  | .mediumtext => 17
  | .longtext => 18

/-- The types whose values are stored in the block dictionary by the encoder:
the `case DECIMAL: case VARCHAR: ... case CHAR_2:` group of
`ConvertToZDW::parseInput` and `writeBlockRows`. -/
def ColType.usesDict : ColType → Bool
  | .varchar | .text | .tinytext | .mediumtext | .longtext
  | .datetime | .char2 | .decimal => true
  | _ => false

/-- The string-like types of the decoder's `readNextRow` switch
(`VARCHAR ... CHAR_2`), which always take the dictionary path; `DECIMAL`
is handled by its own case there. -/
def ColType.isStringLike : ColType → Bool
  | .varchar | .text | .tinytext | .mediumtext | .longtext
  | .datetime | .char2 => true
  | _ => false

/-- The numeric types `TINY .. LONGLONG_SIGNED` (unsigned and signed). -/
def ColType.isNumeric : ColType → Bool
  | .tiny | .short | .long | .longlong
  | .tinySigned | .shortSigned | .longSigned | .longlongSigned => true
  | _ => false

/-! ## `strtoull` model

`ConvertToZDW` parses numeric fields with `strtoull(str, NULL, 10)`.
We model base-10 parsing of a C string given as a byte list: optional
leading spaces, an optional sign (`-` wraps modulo `2^64` as the C
function does), then decimal digits; parsing stops at the first
non-digit.  An empty or non-numeric field parses to `0`. -/

def parseDigits (acc : Nat) : List Nat → Nat
  | [] => acc
  | b :: bs => if 48 ≤ b ∧ b ≤ 57 then parseDigits (acc * 10 + (b - 48)) bs else acc

def strtoull10 (s : List Nat) : Nat :=
  let s1 := s.dropWhile (fun b => b = 32 ∨ b = 9)
  match s1 with
  | 45 :: rest => (2 ^ 64 - parseDigits 0 rest % 2 ^ 64) % 2 ^ 64
  | 43 :: rest => parseDigits 0 rest % 2 ^ 64
  | _ => parseDigits 0 s1 % 2 ^ 64

end ZDW

namespace ZDW.Dict

/-! ## Block dictionary (`dictionary.cpp`, `dictionary.h`)

`Dictionary` is a `std::map<const char*, ULONG, cstringComp>` keyed by
`strcmp` order.  A C string is a byte list containing no `0`.  The map is
modelled as a strictly `cstrLt`-sorted duplicate-free list; `insert` is
ordered insertion, `write` walks the map in order. -/

/-- `strcmp(a, b) < 0` for NUL-free byte strings (the C standard compares
as `unsigned char`, and the terminating NUL makes a proper prefix
compare less). -/
def cstrLt : List Nat → List Nat → Bool
  | [], [] => false
  | [], _ :: _ => true
  | _ :: _, [] => false
  | a :: as, b :: bs => if a < b then true else if b < a then false else cstrLt as bs

theorem cstrLt_irrefl (a : List Nat) : cstrLt a a = false := by
  induction a with
  | nil => rfl
  | cons x xs ih => simp [cstrLt, ih]

theorem cstrLt_asymm (a b : List Nat) (h : cstrLt a b = true) : cstrLt b a = false := by
  induction a generalizing b with
  | nil => cases b with
    | nil => simp [cstrLt] at h
    | cons y ys => simp [cstrLt]
  | cons x xs ih =>
    cases b with
    | nil => simp [cstrLt] at h
    | cons y ys =>
      simp only [cstrLt] at h ⊢
      by_cases hxy : x < y
      · simp [hxy, Nat.lt_asymm hxy, Nat.ne_of_gt hxy]
      · by_cases hyx : y < x
        · simp [hxy, hyx] at h
        · have : x = y := by omega
          subst this
          simp only [Nat.lt_irrefl, if_false] at h ⊢
          exact ih ys h

theorem cstrLt_total (a b : List Nat) (hab : cstrLt a b = false) (hba : cstrLt b a = false) :
    a = b := by
  induction a generalizing b with
  | nil => cases b with
    | nil => rfl
    | cons y ys => simp [cstrLt] at hab
  | cons x xs ih =>
    cases b with
    | nil => simp [cstrLt] at hba
    | cons y ys =>
      simp only [cstrLt] at hab hba
      by_cases hxy : x < y
      · simp [hxy] at hab
      · by_cases hyx : y < x
        · simp [hyx, Nat.lt_asymm hyx] at hba
        · have hx : x = y := by omega
          subst hx
          simp only [Nat.lt_irrefl, if_false] at hab hba
          rw [ih ys hab hba]

theorem cstrLt_trans (a b c : List Nat) (hab : cstrLt a b = true) (hbc : cstrLt b c = true) :
    cstrLt a c = true := by
  induction a generalizing b c with
  | nil =>
    cases b with
    | nil => simp [cstrLt] at hab
    | cons y ys =>
      cases c with
      | nil => simp [cstrLt] at hbc
      | cons z zs => simp [cstrLt]
  | cons x xs ih =>
    cases b with
    | nil => simp [cstrLt] at hab
    | cons y ys =>
      cases c with
      | nil => simp [cstrLt] at hbc
      | cons z zs =>
        simp only [cstrLt] at hab hbc ⊢
        by_cases hxy : x < y
        · by_cases hyz : y < z
          · rw [if_pos (by omega : x < z)]
          · by_cases hzy : z < y
            · rw [if_neg hyz, if_pos hzy] at hbc
              exact absurd hbc (by simp)
            · rw [if_pos (by omega : x < z)]
        · by_cases hyx : y < x
          · rw [if_neg hxy, if_pos hyx] at hab
            exact absurd hab (by simp)
          · rw [if_neg hxy, if_neg hyx] at hab
            by_cases hyz : y < z
            · rw [if_pos (by omega : x < z)]
            · by_cases hzy : z < y
              · rw [if_neg hyz, if_pos hzy] at hbc
                exact absurd hbc (by simp)
              · rw [if_neg hyz, if_neg hzy] at hbc
                rw [if_neg (by omega : ¬ x < z), if_neg (by omega : ¬ z < x)]
                exact ih ys zs hab hbc

/-- `Dictionary::insert`: `std::map` ordered insertion.  Duplicate keys
(`!(a<b) && !(b<a)`, i.e. equal strings) are not re-inserted. -/
def dictInsert : List (List Nat) → List Nat → List (List Nat)
  | [], s => [s]
  | t :: ts, s =>
    if cstrLt s t then s :: t :: ts
    else if cstrLt t s then t :: dictInsert ts s
    else t :: ts

/-- Build the dictionary from the string-like fields fed to it in row
order (`parseInput` pass 1). -/
def buildDict (ss : List (List Nat)) : List (List Nat) :=
  ss.foldl dictInsert []

/-- `Dictionary::getSize()`: accumulated `strlen + 1` over distinct
entries, plus one for the origin null byte. -/
def dictGetSize (d : List (List Nat)) : Nat :=
  1 + (d.map (fun s => s.length + 1)).sum

/-- `Dictionary::getBytesInOffset()`. -/
def dictBytesInOffset (d : List (List Nat)) : Nat :=
  bytesFor (dictGetSize d)

/-- The offset `Dictionary::write` assigns to `s`: entries are walked in
map order, the running byte index starts at 1 and advances by
`strlen + 1`.  (Absent strings are asserted against in the source; we
return 0.) -/
def dictOffsetFrom (idx : Nat) : List (List Nat) → List Nat → Nat
  | [], _ => 0
  | t :: ts, s => if t = s then idx else dictOffsetFrom (idx + t.length + 1) ts s

def dictOffset (d : List (List Nat)) (s : List Nat) : Nat :=
  dictOffsetFrom 1 d s

/-- The dictionary byte buffer written after the size fields: one origin
null, then each entry null-terminated, in map order. -/
def dictBuffer (d : List (List Nat)) : List Nat :=
  0 :: d.flatMap (fun s => s ++ [0])

/-- The full byte output of `Dictionary::write`: a single `0` byte for an
empty dictionary; otherwise the offset width, the buffer size in that
many little-endian bytes, then the buffer. -/
def dictWriteBytes (d : List (List Nat)) : List Nat :=
  if d.isEmpty then [0]
  else dictBytesInOffset d :: leBytes (dictBytesInOffset d) (dictGetSize d) ++ dictBuffer d

theorem mem_dictInsert (l : List (List Nat)) (s a : List Nat) :
    a ∈ dictInsert l s ↔ a = s ∨ a ∈ l := by
  induction l with
  | nil => simp [dictInsert]
  | cons t ts ih =>
    simp only [dictInsert]
    by_cases h1 : cstrLt s t = true
    · simp only [if_pos h1, List.mem_cons]
    · rw [if_neg h1]
      by_cases h2 : cstrLt t s = true
      · simp only [if_pos h2, List.mem_cons, ih]
        tauto
      · rw [if_neg h2]
        have hts : t = s :=
          cstrLt_total t s (by revert h2; cases cstrLt t s <;> simp)
            (by revert h1; cases cstrLt s t <;> simp)
        subst hts
        simp only [List.mem_cons]
        tauto

theorem dictInsert_sorted (l : List (List Nat)) (s : List Nat)
    (hl : l.Pairwise (fun a b => cstrLt a b = true)) :
    (dictInsert l s).Pairwise (fun a b => cstrLt a b = true) := by
  induction l with
  | nil => simp [dictInsert]
  | cons t ts ih =>
    rw [List.pairwise_cons] at hl
    obtain ⟨ht, hts⟩ := hl
    simp only [dictInsert]
    by_cases h1 : cstrLt s t = true
    · rw [if_pos h1, List.pairwise_cons]
      refine ⟨?_, List.Pairwise.cons ht hts⟩
      intro b hb
      rcases List.mem_cons.mp hb with rfl | hb
      · exact h1
      · exact cstrLt_trans s t b h1 (ht b hb)
    · rw [if_neg h1]
      by_cases h2 : cstrLt t s = true
      · rw [if_pos h2, List.pairwise_cons]
        refine ⟨?_, ih hts⟩
        intro b hb
        rcases (mem_dictInsert ts s b).mp hb with rfl | hb
        · exact h2
        · exact ht b hb
      · rw [if_neg h2]
        exact List.Pairwise.cons ht hts

theorem buildDict_sorted_aux (ss : List (List Nat)) (acc : List (List Nat))
    (hacc : acc.Pairwise (fun a b => cstrLt a b = true)) :
    (ss.foldl dictInsert acc).Pairwise (fun a b => cstrLt a b = true) := by
  induction ss generalizing acc with
  | nil => exact hacc
  | cons s ss ih => exact ih (dictInsert acc s) (dictInsert_sorted acc s hacc)

/-- The dictionary built from the inserted strings is strictly sorted in
`strcmp` order (hence lists each distinct string once). -/
theorem buildDict_sorted (ss : List (List Nat)) :
    (buildDict ss).Pairwise (fun a b => cstrLt a b = true) :=
  buildDict_sorted_aux ss [] List.Pairwise.nil

theorem mem_buildDict_aux (ss : List (List Nat)) (acc : List (List Nat)) (a : List Nat) :
    a ∈ ss.foldl dictInsert acc ↔ a ∈ acc ∨ a ∈ ss := by
  induction ss generalizing acc with
  | nil => simp
  | cons s ss ih =>
    simp only [List.foldl_cons, ih, mem_dictInsert, List.mem_cons]
    tauto

/-- The dictionary's entries are exactly the strings inserted into it. -/
theorem mem_buildDict (ss : List (List Nat)) (a : List Nat) :
    a ∈ buildDict ss ↔ a ∈ ss := by
  simpa using mem_buildDict_aux ss [] a

/-- The offset assigned by `Dictionary::write` relative to a starting
index: it is at least the starting index, the entry (with its null
terminator) lies inside the packed region, and the bytes at the offset
are the entry followed by its null terminator. -/
theorem dictOffsetFrom_spec (d : List (List Nat)) (s : List Nat) (idx : Nat) (hs : s ∈ d) :
    idx ≤ dictOffsetFrom idx d s
    ∧ dictOffsetFrom idx d s + s.length + 1 ≤ idx + (d.map (fun t => t.length + 1)).sum
    ∧ ((d.flatMap (fun t => t ++ [0])).drop (dictOffsetFrom idx d s - idx)).take (s.length + 1)
        = s ++ [0] := by
  induction d generalizing idx with
  | nil => cases hs
  | cons t ts ih =>
    by_cases hts : t = s
    · have hoff : dictOffsetFrom idx (t :: ts) s = idx := by
        simp [dictOffsetFrom, hts]
      subst hts
      rw [hoff]
      simp only [List.map_cons, List.sum_cons, List.flatMap_cons, Nat.sub_self, List.drop_zero]
      refine ⟨Nat.le_refl idx, by omega, ?_⟩
      rw [List.take_append_of_le_length (by simp)]
      simp
    · have hs' : s ∈ ts := by
        rcases List.mem_cons.mp hs with rfl | h
        · exact absurd rfl hts
        · exact h
      obtain ⟨h1, h2, h3⟩ := ih (idx + t.length + 1) hs'
      have hoff : dictOffsetFrom idx (t :: ts) s
          = dictOffsetFrom (idx + t.length + 1) ts s := by
        simp [dictOffsetFrom, hts]
      rw [hoff]
      simp only [List.map_cons, List.sum_cons, List.flatMap_cons]
      refine ⟨by omega, by omega, ?_⟩
      rw [List.drop_append_eq_append_drop]
      have hlen : (t ++ [0]).length = t.length + 1 := by simp
      rw [List.drop_eq_nil_of_le (by omega), List.nil_append, hlen]
      have harith : dictOffsetFrom (idx + t.length + 1) ts s - idx - (t.length + 1)
          = dictOffsetFrom (idx + t.length + 1) ts s - (idx + t.length + 1) := by omega
      rw [harith]
      exact h3

/-- Bundled offset facts for an entry of the dictionary, as used by the
block's row stream: the offset is 1-based, bounded by
`dict_size - 1`, and points at the start of the entry's null-terminated
encoding inside `dictBuffer`. -/
theorem dictOffset_spec (d : List (List Nat)) (s : List Nat) (hs : s ∈ d) :
    1 ≤ dictOffset d s
    ∧ dictOffset d s + s.length + 1 ≤ dictGetSize d
    ∧ ((dictBuffer d).drop (dictOffset d s)).take (s.length + 1) = s ++ [0] := by
  obtain ⟨h1, h2, h3⟩ := dictOffsetFrom_spec d s 1 hs
  unfold dictOffset dictGetSize dictBuffer
  refine ⟨h1, by omega, ?_⟩
  have hoff : dictOffsetFrom 1 d s = (dictOffsetFrom 1 d s - 1) + 1 := by omega
  rw [hoff, List.drop_succ_cons]
  exact h3

end ZDW.Dict

namespace ZDW.Tok

/-! ## Row tokenizer (`getnextrow.cpp`, `get_next_column` in
`ConvertToZDW.cpp`)

A row is a byte list; tab is `9`, backslash is `92`, newline is `10`.
`Common::GetNextRow` reads physical lines (`fgets`) and glues them while
the accumulated text does not end in a newline preceded by an even run
of backslashes; `get_next_column` finds the next field-separating tab,
skipping tabs preceded by an odd run of backslashes. -/

/-- Length of the trailing run of backslashes. -/
def trailingRun (l : List Nat) : Nat :=
  (l.reverse.takeWhile (fun b => b = 92)).length

/-- Split at the first tab: `strchr(col, '\t')`.  Returns the bytes
before the tab and the bytes after it. -/
def breakAtTab : List Nat → Option (List Nat × List Nat)
  | [] => none
  | b :: rest =>
    if b = 9 then some ([], rest)
    else (breakAtTab rest).map (fun p => (b :: p.1, p.2))

theorem breakAtTab_some (r a rest : List Nat) (h : breakAtTab r = some (a, rest)) :
    r = a ++ 9 :: rest := by
  induction r generalizing a with
  | nil => simp [breakAtTab] at h
  | cons b bs ih =>
    simp only [breakAtTab] at h
    by_cases hb : b = 9
    · rw [if_pos hb] at h
      cases h
      simpa using hb
    · rw [if_neg hb] at h
      cases hbb : breakAtTab bs with
      | none => rw [hbb] at h; simp at h
      | some p =>
        obtain ⟨pa, pb⟩ := p
        rw [hbb] at h
        simp only [Option.map_some'] at h
        cases h
        have := ih pa hbb
        simp [this]

theorem breakAtTab_rest_lt (r a rest : List Nat) (h : breakAtTab r = some (a, rest)) :
    rest.length < r.length := by
  have := breakAtTab_some r a rest h
  subst this
  simp
  omega

/-- `get_next_column`: the scan finds the first tab; a tab preceded by an
odd run of backslashes (`(col - slash) % 2 == 0` in the source, where
`col - slash` is the run length plus one) is part of the field and the
scan continues after it.  Returns the field and the bytes after the
separating tab, or `none` when no unescaped tab remains (last field of
the row). -/
def getNextColSplit (r : List Nat) : Option (List Nat × List Nat) :=
  match h : breakAtTab r with
  | none => none
  | some (a, rest) =>
    if trailingRun a % 2 = 1 then
      match getNextColSplit rest with
      | none => none
      | some (f, rest2) => some (a ++ 9 :: f, rest2)
    else some (a, rest)
  termination_by r.length
  decreasing_by
    exact breakAtTab_rest_lt r a rest h

theorem getNextColSplit_rest_lt_aux (n : Nat) :
    ∀ (r : List Nat), r.length ≤ n → ∀ f rest2,
      getNextColSplit r = some (f, rest2) → rest2.length < r.length := by
  induction n with
  | zero =>
    intro r hr f rest2 h
    have : r = [] := List.length_eq_zero.mp (Nat.le_zero.mp hr)
    subst this
    rw [getNextColSplit] at h
    split at h
    · exact absurd h (by simp)
    · rename_i a rest hb
      simp [breakAtTab] at hb
  | succ n ih =>
    intro r hr f rest2 h
    rw [getNextColSplit] at h
    split at h
    · exact absurd h (by simp)
    · rename_i a rest hb
      have hlt := breakAtTab_rest_lt r a rest hb
      split at h
      · split at h
        · exact absurd h (by simp)
        · rename_i f2 r2 hc
          have := ih rest (by omega) f2 r2 hc
          cases h
          omega
      · cases h
        omega

theorem getNextColSplit_rest_lt (r f rest2 : List Nat)
    (h : getNextColSplit r = some (f, rest2)) : rest2.length < r.length :=
  getNextColSplit_rest_lt_aux r.length r (Nat.le_refl _) f rest2 h

/-- `ConvertToZDW::GetDataRow`'s splitting loop: collect fields with
`get_next_column`, null-terminating each found tab. -/
def splitRowSrc (r : List Nat) : List (List Nat) :=
  match h : getNextColSplit r with
  | none => [r]
  | some (f, rest) => f :: splitRowSrc rest
  termination_by r.length
  decreasing_by
    exact getNextColSplit_rest_lt r f rest h

/-- Modelled from the spec's words (section 4.1): "A tab splits fields
unless preceded by an odd number of consecutive backslashes; in that
case the tab is part of the field and the scanner continues."  A single
left-to-right scan carrying the current field (reversed) and the length
of the current backslash run. -/
def splitRowSpecAux : List Nat → List Nat → Nat → List (List Nat)
  | [], field, _ => [field.reverse]
  | b :: rest, field, run =>
    if b = 9 ∧ run % 2 = 0 then field.reverse :: splitRowSpecAux rest [] 0
    else splitRowSpecAux rest (b :: field) (if b = 92 then run + 1 else 0)

def splitRowSpec (r : List Nat) : List (List Nat) :=
  splitRowSpecAux r [] 0

/-- One-field variant of the spec scan: the bytes up to (not including)
the first splitting tab, and the bytes after that tab, carrying the run
of backslashes seen immediately before the scan position. -/
def specFirst : List Nat → Nat → Option (List Nat × List Nat)
  | [], _ => none
  | b :: rest, run =>
    if b = 9 ∧ run % 2 = 0 then some ([], rest)
    else (specFirst rest (if b = 92 then run + 1 else 0)).map (fun p => (b :: p.1, p.2))

/-- The backslash run ending a segment `a` scanned with `run` backslashes
already standing immediately before it. -/
def runCtx (a : List Nat) (run : Nat) : Nat :=
  if a.all (fun b => b = 92) then run + a.length else trailingRun a

theorem takeWhile_append_all (p : Nat → Bool) (xs ys : List Nat) (h : xs.all p = true) :
    (xs ++ ys).takeWhile p = xs ++ ys.takeWhile p := by
  induction xs with
  | nil => simp
  | cons x xs ih =>
    simp only [List.all_cons, Bool.and_eq_true] at h
    simp [List.takeWhile_cons, h.1, ih h.2]

theorem takeWhile_append_of_not_all (p : Nat → Bool) (xs ys : List Nat)
    (h : ¬ xs.all p = true) :
    (xs ++ ys).takeWhile p = xs.takeWhile p := by
  induction xs with
  | nil => simp at h
  | cons x xs ih =>
    simp only [List.all_cons, Bool.and_eq_true] at h
    by_cases hx : p x
    · have hxs : ¬ xs.all p = true := fun hh => h ⟨hx, hh⟩
      simp [List.takeWhile_cons, hx, ih hxs]
    · simp [List.takeWhile_cons, hx]

theorem trailingRun_all (l : List Nat) (h : l.all (fun b => b = 92) = true) :
    trailingRun l = l.length := by
  unfold trailingRun
  rw [List.takeWhile_eq_self_iff.mpr ?_]
  · simp
  · intro a ha
    rw [List.mem_reverse] at ha
    simpa using List.all_eq_true.mp h a ha

theorem runCtx_cons (b : Nat) (a : List Nat) (run : Nat) :
    runCtx (b :: a) run = runCtx a (if b = 92 then run + 1 else 0) := by
  unfold runCtx
  by_cases hall : a.all (fun x => x = 92) = true
  · by_cases hb : b = 92
    · rw [if_pos (by simp [hall, hb]), if_pos hall, if_pos hb]
      simp
      omega
    · rw [if_neg (by simp [hb]), if_pos hall, if_neg hb]
      unfold trailingRun
      rw [show (b :: a).reverse = a.reverse ++ [b] from by simp]
      rw [takeWhile_append_all _ _ _ (by simpa using hall)]
      simp [List.takeWhile_cons, hb]
  · rw [if_neg (by simp [hall]), if_neg hall]
    have h2 : trailingRun (b :: a) = trailingRun a := by
      unfold trailingRun
      rw [show (b :: a).reverse = a.reverse ++ [b] from by simp]
      rw [takeWhile_append_of_not_all _ _ _ (by simpa using hall)]
    rw [h2]

theorem runCtx_zero (a : List Nat) : runCtx a 0 = trailingRun a := by
  unfold runCtx
  by_cases hall : a.all (fun x => x = 92) = true
  · rw [if_pos hall, trailingRun_all a hall]
    omega
  · rw [if_neg hall]

theorem specFirst_of_none (r : List Nat) (run : Nat) (h : breakAtTab r = none) :
    specFirst r run = none := by
  induction r generalizing run with
  | nil => rfl
  | cons b rest ih =>
    simp only [breakAtTab] at h
    by_cases hb : b = 9
    · rw [if_pos hb] at h
      simp at h
    · rw [if_neg hb] at h
      have hrest : breakAtTab rest = none := by
        cases hbb : breakAtTab rest with
        | none => rfl
        | some p => rw [hbb] at h; simp at h
      simp only [specFirst, if_neg (by simp [hb] : ¬ (b = 9 ∧ run % 2 = 0))]
      rw [ih _ hrest]
      rfl

/-- The spec scan's first split agrees with the `strchr`-walk structure:
it finds the first tab, treats it as a separator iff the backslash run
before it (in context `run`) is even, and otherwise keeps the tab inside
the field and continues after it. -/
theorem specFirst_of_some (r : List Nat) (run : Nat) (a rest : List Nat)
    (h : breakAtTab r = some (a, rest)) :
    specFirst r run
      = if runCtx a run % 2 = 1 then
          (specFirst rest 0).map (fun p => (a ++ 9 :: p.1, p.2))
        else some (a, rest) := by
  induction r generalizing run a with
  | nil => simp [breakAtTab] at h
  | cons b rest0 ih =>
    simp only [breakAtTab] at h
    by_cases hb : b = 9
    · rw [if_pos hb] at h
      cases h
      subst hb
      simp only [specFirst]
      have hctx : runCtx [] run = run := by unfold runCtx; simp
      by_cases hrun : run % 2 = 0
      · rw [if_pos (by simp [hrun]), if_neg (show ¬ runCtx [] run % 2 = 1 by rw [hctx]; omega)]
      · rw [if_neg (by simp [hrun])]
        rw [if_neg (show ¬ (9 : Nat) = 92 by norm_num)]
        rw [if_pos (show runCtx [] run % 2 = 1 by rw [hctx]; omega)]
        cases specFirst rest 0 with
        | none => rfl
        | some q => rfl
    · rw [if_neg hb] at h
      cases hbb : breakAtTab rest0 with
      | none => rw [hbb] at h; simp at h
      | some p =>
        obtain ⟨a2, rest2⟩ := p
        rw [hbb] at h
        simp only [Option.map_some'] at h
        cases h
        simp only [specFirst, if_neg (by simp [hb] : ¬ (b = 9 ∧ run % 2 = 0))]
        rw [ih (if b = 92 then run + 1 else 0) a2 hbb]
        rw [← runCtx_cons b a2 run]
        by_cases hctx : runCtx (b :: a2) run % 2 = 1
        · rw [if_pos hctx, if_pos hctx]
          cases specFirst rest 0 with
          | none => rfl
          | some q => rfl
        · rw [if_neg hctx, if_neg hctx]
          rfl

theorem getNextColSplit_of_none (r : List Nat) (h : breakAtTab r = none) :
    getNextColSplit r = none := by
  rw [getNextColSplit]
  split
  · rfl
  · rename_i a rest hb
    rw [h] at hb
    cases hb

theorem getNextColSplit_of_some (r a rest : List Nat) (h : breakAtTab r = some (a, rest)) :
    getNextColSplit r
      = if trailingRun a % 2 = 1 then
          (getNextColSplit rest).map (fun p => (a ++ 9 :: p.1, p.2))
        else some (a, rest) := by
  rw [getNextColSplit]
  split
  · rename_i hb
    rw [h] at hb
    cases hb
  · rename_i a2 rest2 hb
    rw [h] at hb
    cases hb
    by_cases hodd : trailingRun a % 2 = 1
    · rw [if_pos hodd, if_pos hodd]
      cases getNextColSplit rest with
      | none => rfl
      | some q =>
        obtain ⟨qf, qr⟩ := q
        rfl
    · rw [if_neg hodd, if_neg hodd]

theorem splitRowSrc_of_none (r : List Nat) (h : getNextColSplit r = none) :
    splitRowSrc r = [r] := by
  rw [splitRowSrc]
  split
  · rfl
  · rename_i f rest hg
    rw [h] at hg
    cases hg

theorem splitRowSrc_of_some (r f rest : List Nat) (h : getNextColSplit r = some (f, rest)) :
    splitRowSrc r = f :: splitRowSrc rest := by
  rw [splitRowSrc]
  split
  · rename_i hg
    rw [h] at hg
    cases hg
  · rename_i f2 rest2 hg
    rw [h] at hg
    cases hg
    rfl

/-- `get_next_column` computes exactly the spec scan's first split. -/
theorem getNextColSplit_eq_specFirst_aux (n : Nat) :
    ∀ r : List Nat, r.length ≤ n → getNextColSplit r = specFirst r 0 := by
  induction n with
  | zero =>
    intro r hr
    have hnil : r = [] := List.length_eq_zero.mp (Nat.le_zero.mp hr)
    subst hnil
    rw [getNextColSplit_of_none [] rfl]
    rfl
  | succ n ih =>
    intro r hr
    cases hbb : breakAtTab r with
    | none => rw [getNextColSplit_of_none r hbb, specFirst_of_none r 0 hbb]
    | some p =>
      obtain ⟨a, rest⟩ := p
      have hlt := breakAtTab_rest_lt r a rest hbb
      rw [getNextColSplit_of_some r a rest hbb, specFirst_of_some r 0 a rest hbb, runCtx_zero]
      by_cases hodd : trailingRun a % 2 = 1
      · rw [if_pos hodd, if_pos hodd, ih rest (by omega)]
      · rw [if_neg hodd, if_neg hodd]

theorem getNextColSplit_eq_specFirst (r : List Nat) :
    getNextColSplit r = specFirst r 0 :=
  getNextColSplit_eq_specFirst_aux r.length r (Nat.le_refl _)

theorem splitRowSpecAux_specFirst (r : List Nat) (field : List Nat) (run : Nat) :
    splitRowSpecAux r field run
      = match specFirst r run with
        | none => [field.reverse ++ r]
        | some (f, rest) => (field.reverse ++ f) :: splitRowSpecAux rest [] 0 := by
  induction r generalizing field run with
  | nil => simp [splitRowSpecAux, specFirst]
  | cons b rest ih =>
    by_cases hsplit : b = 9 ∧ run % 2 = 0
    · simp only [splitRowSpecAux, specFirst, if_pos hsplit]
      simp
    · simp only [splitRowSpecAux, specFirst, if_neg hsplit]
      rw [ih (b :: field) (if b = 92 then run + 1 else 0)]
      cases hs : specFirst rest (if b = 92 then run + 1 else 0) with
      | none => simp
      | some p =>
        obtain ⟨f, rest2⟩ := p
        simp

theorem specFirst_rest_lt (r : List Nat) (run : Nat) (f rest : List Nat)
    (h : specFirst r run = some (f, rest)) : rest.length < r.length := by
  induction r generalizing run f with
  | nil => simp [specFirst] at h
  | cons b bs ih =>
    simp only [specFirst] at h
    by_cases hsplit : b = 9 ∧ run % 2 = 0
    · rw [if_pos hsplit] at h
      cases h
      simp
    · rw [if_neg hsplit] at h
      cases hs : specFirst bs (if b = 92 then run + 1 else 0) with
      | none => rw [hs] at h; simp at h
      | some p =>
        obtain ⟨pf, pr⟩ := p
        rw [hs] at h
        simp only [Option.map_some'] at h
        cases h
        have := ih (if b = 92 then run + 1 else 0) pf hs
        simp
        omega

/-- `GetDataRow`'s field extraction computes the spec's split. -/
theorem splitRowSrc_eq_spec_aux (n : Nat) :
    ∀ r : List Nat, r.length ≤ n → splitRowSrc r = splitRowSpec r := by
  induction n with
  | zero =>
    intro r hr
    have hnil : r = [] := List.length_eq_zero.mp (Nat.le_zero.mp hr)
    subst hnil
    rw [splitRowSrc_of_none [] (getNextColSplit_of_none [] rfl)]
    rfl
  | succ n ih =>
    intro r hr
    unfold splitRowSpec
    rw [splitRowSpecAux_specFirst r [] 0]
    rw [← getNextColSplit_eq_specFirst r]
    cases hg : getNextColSplit r with
    | none => rw [splitRowSrc_of_none r hg]; simp
    | some p =>
      obtain ⟨f, rest⟩ := p
      have hlt := getNextColSplit_rest_lt r f rest hg
      rw [splitRowSrc_of_some r f rest hg]
      simp only [List.reverse_nil, List.nil_append]
      rw [ih rest (by omega)]
      rfl

theorem splitRowSrc_eq_spec (r : List Nat) : splitRowSrc r = splitRowSpec r :=
  splitRowSrc_eq_spec_aux r.length r (Nat.le_refl _)

/-! ### Physical-line reading (`Common::GetNextRow`) -/

/-- `fgets` with an unbounded buffer: the next physical line (up to and
including the newline byte, or up to end of input), and the remaining
bytes.  The source's fixed-size buffer with doubling reads the same
physical line in chunks; the net effect is the same. -/
def readLine : List Nat → List Nat × List Nat
  | [] => ([], [])
  | b :: rest =>
    if b = 10 then ([10], rest)
    else (b :: (readLine rest).1, (readLine rest).2)

theorem readLine_rest_lt (b : Nat) (rest : List Nat) :
    (readLine (b :: rest)).2.length < (b :: rest).length := by
  induction rest generalizing b with
  | nil =>
    by_cases hb : b = 10 <;> simp [readLine, hb]
  | cons c cs ih =>
    by_cases hb : b = 10
    · simp [readLine, hb]
    · have := ih c
      simp only [readLine, if_neg hb]
      simpa using Nat.lt_succ_of_lt this

/-- The accumulated text is a complete row: it ends with a newline and
the backslash run before the newline has even length
(`bEndlineFound && ((e % 2) == 0)` in the source). -/
def EndOfLine (acc : List Nat) : Prop :=
  acc.getLast? = some 10 ∧ trailingRun acc.dropLast % 2 = 0

instance (acc : List Nat) : Decidable (EndOfLine acc) := by
  unfold EndOfLine
  infer_instance

/-- The append loop of `GetNextRow`: keep reading physical lines onto the
buffer until the accumulated text is a complete row; then strip the
trailing newline (`row[len - 1] = 0`).  Reaching end of input mid-way
returns nothing (`return 0` in the source: an empty row). -/
def glueLines (acc : List Nat) (bs : List Nat) : Option (List Nat × List Nat) :=
  if EndOfLine acc then some (acc.dropLast, bs)
  else
    match bs with
    | [] => none
    | b :: rest => glueLines (acc ++ (readLine (b :: rest)).1) ((readLine (b :: rest)).2)
  termination_by bs.length
  decreasing_by
    exact readLine_rest_lt _ _

/-- `Common::GetNextRow` over the remaining input bytes: skip physical
lines shorter than two bytes, then glue continuation lines; `none` models
the `return 0` empty-row result at end of input. -/
def getNextRow : List Nat → Option (List Nat × List Nat)
  | [] => none
  | b :: rest =>
    if (readLine (b :: rest)).1.length < 2 then getNextRow ((readLine (b :: rest)).2)
    else glueLines ((readLine (b :: rest)).1) ((readLine (b :: rest)).2)
  termination_by bs => bs.length
  decreasing_by
    exact readLine_rest_lt _ _

theorem glueLines_of_end (acc bs : List Nat) (h : EndOfLine acc) :
    glueLines acc bs = some (acc.dropLast, bs) := by
  unfold glueLines
  rw [if_pos h]

theorem glueLines_nil_of_not_end (acc : List Nat) (h : ¬ EndOfLine acc) :
    glueLines acc [] = none := by
  unfold glueLines
  rw [if_neg h]

theorem glueLines_step (acc bs : List Nat) (h : ¬ EndOfLine acc) (hbs : bs ≠ []) :
    glueLines acc bs = glueLines (acc ++ (readLine bs).1) ((readLine bs).2) := by
  cases bs with
  | nil => exact absurd rfl hbs
  | cons b rest =>
    conv_lhs => unfold glueLines
    rw [if_neg h]

theorem getNextRow_cons (b : Nat) (rest : List Nat)
    (h : ¬ (readLine (b :: rest)).1.length < 2) :
    getNextRow (b :: rest) = glueLines ((readLine (b :: rest)).1) ((readLine (b :: rest)).2) := by
  unfold getNextRow
  rw [if_neg h]

/-- A physical line: ends with the newline byte, which does not occur
earlier in it. -/
def IsLine (l : List Nat) : Prop :=
  l.getLast? = some 10 ∧ 10 ∉ l.dropLast

theorem IsLine.ne_nil (l : List Nat) (h : IsLine l) : l ≠ [] := by
  intro hnil
  subst hnil
  simp [IsLine] at h

theorem readLine_cons_ne (b : Nat) (rest : List Nat) (hb : b ≠ 10) :
    readLine (b :: rest) = (b :: (readLine rest).1, (readLine rest).2) := by
  simp only [readLine, if_neg hb]

theorem readLine_line (l bs : List Nat) (hl : IsLine l) : readLine (l ++ bs) = (l, bs) := by
  obtain ⟨hlast, hmem⟩ := hl
  induction l with
  | nil => simp at hlast
  | cons b rest ih =>
    cases rest with
    | nil =>
      simp only [List.getLast?_singleton, Option.some_inj] at hlast
      subst hlast
      simp [readLine]
    | cons c cs =>
      have hb : b ≠ 10 := by
        intro hb
        apply hmem
        rw [List.dropLast_cons₂, hb]
        exact List.mem_cons_self _ _
      have hlast2 : (c :: cs).getLast? = some 10 := by
        rwa [List.getLast?_cons_cons] at hlast
      have hmem2 : 10 ∉ (c :: cs).dropLast := by
        intro hx
        apply hmem
        rw [List.dropLast_cons₂]
        exact List.mem_cons_of_mem _ hx
      have hstep := ih hlast2 hmem2
      rw [List.cons_append, readLine_cons_ne b _ hb, hstep]

theorem trailingRun_append_of_last_newline (acc x : List Nat)
    (h : acc.getLast? = some 10) : trailingRun (acc ++ x) = trailingRun x := by
  have hrev : acc.reverse.head? = some 10 := by rw [List.head?_reverse]; exact h
  obtain ⟨t, ht⟩ : ∃ t, acc.reverse = 10 :: t := by
    cases hr : acc.reverse with
    | nil => rw [hr] at hrev; simp at hrev
    | cons a as =>
      rw [hr] at hrev
      simp only [List.head?_cons, Option.some_inj] at hrev
      exact ⟨as, by rw [hrev]⟩
  unfold trailingRun
  rw [List.reverse_append, ht]
  by_cases hall : x.reverse.all (fun b => b = 92) = true
  · rw [takeWhile_append_all _ _ _ hall]
    have hstop : List.takeWhile (fun b => decide (b = 92)) (10 :: t) = [] := by
      simp [List.takeWhile_cons]
    have hxall : x.all (fun b => b = 92) = true := by
      rw [List.all_eq_true] at hall ⊢
      intro a ha
      exact hall a (List.mem_reverse.mpr ha)
    have hlen := trailingRun_all x hxall
    unfold trailingRun at hlen
    simp [hstop, hlen]
  · rw [takeWhile_append_of_not_all _ _ _ hall]

/-- One glue pass over complete physical lines: continuation lines (odd
trailing-backslash run) are appended whole, and the pass stops at the
first line whose run is even, dropping only the final newline. -/
theorem glueLines_concat (ls : List (List Nat)) :
    ∀ (acc : List Nat) (lend rest : List Nat),
      acc.getLast? = some 10 →
      trailingRun acc.dropLast % 2 = 1 →
      (∀ l ∈ ls, IsLine l ∧ trailingRun l.dropLast % 2 = 1) →
      IsLine lend → trailingRun lend.dropLast % 2 = 0 →
      glueLines acc (ls.flatten ++ (lend ++ rest))
        = some ((acc ++ ls.flatten ++ lend).dropLast, rest) := by
  induction ls with
  | nil =>
    intro acc lend rest hacc hodd _ hlend heven
    have hne : ¬ EndOfLine acc := by
      intro hend
      rw [hend.2] at hodd
      simp at hodd
    rw [List.flatten_nil, List.nil_append]
    rw [glueLines_step acc (lend ++ rest) hne
      (by simp [IsLine.ne_nil lend hlend])]
    rw [readLine_line lend rest hlend]
    have hend2 : EndOfLine (acc ++ lend) := by
      constructor
      · rw [List.getLast?_append_of_ne_nil acc (IsLine.ne_nil lend hlend)]
        exact hlend.1
      · rw [List.dropLast_append_of_ne_nil acc (IsLine.ne_nil lend hlend)]
        rw [trailingRun_append_of_last_newline acc lend.dropLast hacc]
        exact heven
    rw [glueLines_of_end _ _ hend2]
    simp
  | cons l ls ih =>
    intro acc lend rest hacc hodd hcont hlend heven
    have hl := hcont l (List.mem_cons_self _ _)
    have hne : ¬ EndOfLine acc := by
      intro hend
      rw [hend.2] at hodd
      simp at hodd
    rw [List.flatten_cons, List.append_assoc]
    rw [glueLines_step acc (l ++ (ls.flatten ++ (lend ++ rest))) hne
      (by simp [IsLine.ne_nil l hl.1])]
    rw [readLine_line l _ hl.1]
    have hacc2 : (acc ++ l).getLast? = some 10 := by
      rw [List.getLast?_append_of_ne_nil acc (IsLine.ne_nil l hl.1)]
      exact hl.1.1
    have hodd2 : trailingRun (acc ++ l).dropLast % 2 = 1 := by
      rw [List.dropLast_append_of_ne_nil acc (IsLine.ne_nil l hl.1)]
      rw [trailingRun_append_of_last_newline acc l.dropLast hacc]
      exact hl.2
    have hres := ih (acc ++ l) lend rest hacc2 hodd2
      (fun x hx => hcont x (List.mem_cons_of_mem _ hx)) hlend heven
    rw [hres]
    simp [List.append_assoc]

/-- If every remaining physical line is a continuation line (odd trailing
backslash run), the glue loop reaches end of input and yields nothing. -/
theorem glueLines_eof (ls : List (List Nat)) :
    ∀ acc : List Nat,
      acc.getLast? = some 10 →
      trailingRun acc.dropLast % 2 = 1 →
      (∀ l ∈ ls, IsLine l ∧ trailingRun l.dropLast % 2 = 1) →
      glueLines acc ls.flatten = none := by
  induction ls with
  | nil =>
    intro acc _ hodd _
    apply glueLines_nil_of_not_end
    intro hend
    rw [hend.2] at hodd
    simp at hodd
  | cons l ls ih =>
    intro acc hacc hodd hcont
    have hl := hcont l (List.mem_cons_self _ _)
    have hne : ¬ EndOfLine acc := by
      intro hend
      rw [hend.2] at hodd
      simp at hodd
    rw [List.flatten_cons]
    rw [glueLines_step acc (l ++ ls.flatten) hne (by simp [IsLine.ne_nil l hl.1])]
    rw [readLine_line l _ hl.1]
    apply ih (acc ++ l)
    · rw [List.getLast?_append_of_ne_nil acc (IsLine.ne_nil l hl.1)]
      exact hl.1.1
    · rw [List.dropLast_append_of_ne_nil acc (IsLine.ne_nil l hl.1)]
      rw [trailingRun_append_of_last_newline acc l.dropLast hacc]
      exact hl.2
    · exact fun x hx => hcont x (List.mem_cons_of_mem _ hx)

end ZDW.Tok

namespace ZDW.Enc

open ZDW.Dict

/-! ## Encoder (`ConvertToZDW.cpp`)

Fields are byte lists (no NUL, tabs only behind an odd backslash run).
Rows are lists of fields.  The dictionary-offset function, the per-column
delta base and byte widths come from pass 1; here they are parameters
computed by the pass-1 model below.  Machine subtraction on `ULONGLONG`
is `(v + 2^64 - base) % 2^64`, which equals `v - base` whenever
`base ≤ v < 2^64` (the only situations the encoder creates). -/

def W64 : Nat := 2 ^ 64

/-- The *stored value* of a column in `ConvertToZDW::writeBlockRows`:
dictionary offset for the string-like group (`VARCHAR`..`CHAR_2`,
`DECIMAL`), the (escape-folded) byte value minus the written base for
`CHAR`, the parsed value minus the written base for the numeric types
(`strtoull`), and `0` for an empty field.  `VISID_LOW/HIGH` have no case
in the source switch (the schema reader never produces them); they store
nothing and are modelled as `0`. -/
def storedValOf (t : ColType) (dictOff : List Nat → Nat) (base : Nat) (field : List Nat) :
    Nat :=
  if t.usesDict then
    if field ≠ [] then dictOff field else 0
  else if t = .char1 then
    let v0 := field.headD 0
    if v0 ≠ 0 then (v0 + field.getD 1 0 * 256 + W64 - base) % W64 else 0
  else if t.isNumeric then
    let v := strtoull10 field
    if v > 0 then (v + W64 - base) % W64 else v
  else 0

/-! ### Pass 1: per-column range stats and the dictionary
(`ConvertToZDW::parseInput`) -/

/-- `minmaxset[c]`, `columnMin[c]`, `columnMax[c]`. -/
structure ColStats where
  minmaxset : Bool
  min : Nat
  max : Nat
  deriving DecidableEq, Repr

def ColStats.initial : ColStats := ⟨false, 0, 0⟩

/-- The `if (val > 0) { ... }` min/max update of `parseInput` for CHAR and
numeric columns. -/
def updateMinMax (cs : ColStats) (v : Nat) : ColStats :=
  if v > 0 then
    if cs.minmaxset then
      if v > cs.max then { cs with max := v }
      else if v < cs.min then { cs with min := v }
      else cs
    else ⟨true, v, v⟩
  else cs

/-- `parseInput`'s CHAR value: the first byte, plus the second byte times
256 when the first byte is a backslash. -/
def charValPass1 (field : List Nat) : Nat :=
  field.headD 0 + (if field.headD 0 = 92 then field.getD 1 0 * 256 else 0)

/-- `writeBlockRows`'s CHAR value before the base subtraction: the first
byte plus the second byte (the NUL for a one-byte field) times 256. -/
def charValPass2 (field : List Nat) : Nat :=
  field.headD 0 + field.getD 1 0 * 256

/-- Dictionary build-up state: the `std::map` entries and the
`StringHeap` byte count. -/
structure DictState where
  entries : List (List Nat)
  heapBytes : Nat

def DictState.empty : DictState := ⟨[], 0⟩

/-- `Dictionary::insert`: a string already present costs nothing and
reports `true`; a new string is copied to the heap (`strlen + 1` bytes)
and the call reports whether the heap is not low on memory.  The
low-memory probe (`StringHeap::is_low_on_memory`, fed by allocation
failures and the process-resident-size check in `memory.cpp`) is
abstracted into the oracle `memLow` on the accumulated heap bytes. -/
def dictStateInsert (memLow : Nat → Bool) (st : DictState) (s : List Nat) :
    DictState × Bool :=
  if s ∈ st.entries then (st, true)
  else
    let st2 : DictState := ⟨dictInsert st.entries s, st.heapBytes + s.length + 1⟩
    (st2, ! memLow st2.heapBytes)

/-- The per-column loop body of `parseInput` for one row: feed non-empty
string-like fields to the dictionary (also marking the column used),
update CHAR/numeric ranges, and stop at the first insert reporting low
memory (`hadEnoughMemory` guards the loop). -/
def processRowCols (memLow : Nat → Bool) :
    List ColType → List (List Nat) → DictState → List ColStats →
      DictState × List ColStats × Bool
  | [], _, st, stats => (st, stats, true)
  | _, [], st, stats => (st, stats, true)
  | _ :: _, _ :: _, st, [] => (st, [], true)
  | t :: ts, f :: fs, st, cs :: css =>
    if f.isEmpty then
      let r := processRowCols memLow ts fs st css
      (r.1, cs :: r.2.1, r.2.2)
    else if t.usesDict then
      let cs2 : ColStats := { cs with minmaxset := true }
      let (st2, ok) := dictStateInsert memLow st f
      if ok then
        let r := processRowCols memLow ts fs st2 css
        (r.1, cs2 :: r.2.1, r.2.2)
      else (st2, cs2 :: css, false)
    else if t = .char1 then
      let r := processRowCols memLow ts fs st css
      (r.1, updateMinMax cs (charValPass1 f) :: r.2.1, r.2.2)
    else if t.isNumeric then
      let r := processRowCols memLow ts fs st css
      (r.1, updateMinMax cs (strtoull10 f) :: r.2.1, r.2.2)
    else
      let r := processRowCols memLow ts fs st css
      (r.1, cs :: r.2.1, r.2.2)

inductive InStatus
  | done
  | notEnoughMemory
  | wrongColumns
  deriving DecidableEq, Repr

/-- `ConvertToZDW::parseInput`: consume rows until the input is
exhausted, a row has the wrong number of columns, or the dictionary
reports low memory.  The row that triggers the low-memory signal is not
counted (`numRows` is only incremented when `hadEnoughMemory`). -/
def parseInputRows (memLow : Nat → Bool) (types : List ColType) :
    List (List (List Nat)) → DictState → List ColStats → Nat →
      Nat × DictState × List ColStats × InStatus
  | [], st, stats, n => (n, st, stats, .done)
  | row :: rows, st, stats, n =>
    if row.length ≠ types.length then (n, st, stats, .wrongColumns)
    else
      let r := processRowCols memLow types row st stats
      if r.2.2 then parseInputRows memLow types rows r.1 r.2.1 (n + 1)
      else (n, r.1, r.2.1, .notEnoughMemory)

/-! ### `writeLookupColumnStats` -/

/-- Per-column `(size_bytes, written_min)`: unused columns get size `0`;
dictionary columns get the offset width with base hard-coded to `0`;
CHAR/numeric columns get base `min - 1` (the source's `--columnMin[c]`)
and the byte width of `max - (min - 1)`. -/
def finalizeCol (t : ColType) (offsetSize : Nat) (cs : ColStats) : Nat × Nat :=
  if ! cs.minmaxset then (0, 0)
  else if t.usesDict then (offsetSize, 0)
  else (bytesFor (cs.max - (cs.min - 1)), cs.min - 1)

/-! ### `writeBlockRows`: the sameness bitmap and payload -/

/-- `setColumns[u / 8] |= 1u << (u % 8)`. -/
def setBit (bytes : List Nat) (u : Nat) : List Nat :=
  bytes.set (u / 8) (bytes.getD (u / 8) 0 ||| (1 <<< (u % 8)))

/-- Pack one row: walk the used columns in order with their
`(differs, stored value, size_bytes)` cells; a differing cell sets bit
`u` and appends its `size_bytes` little-endian bytes to the payload. -/
def packRowGo : List (Bool × Nat × Nat) → Nat → List Nat → List Nat → List Nat × List Nat
  | [], _, bitmap, payload => (bitmap, payload)
  | (diff, stored, size) :: rest, u, bitmap, payload =>
    if diff then packRowGo rest (u + 1) (setBit bitmap u) (payload ++ leBytes size stored)
    else packRowGo rest (u + 1) bitmap payload

/-- One encoded row: `ceil(used/8)` zeroed bitmap bytes
(`memset(setColumns, 0, numSetColumnBytes)`), then the pack loop, then
`setColumns` followed by the payload bytes. -/
def packRow (cells : List (Bool × Nat × Nat)) : List Nat :=
  let r := packRowGo cells 0 (List.replicate ((cells.length + 7) / 8) 0) []
  r.1 ++ r.2

/-- Overwrite a stored-value slot at the used columns
(`columnStoredVal[r][c] = ...` for each used column of the row). -/
def overwriteUsed (slot : Nat → Nat) (used : List Nat) (cur : Nat → Nat) : Nat → Nat :=
  fun c => if c ∈ used then cur c else slot c

/-- The row loop of `ConvertToZDW::writeBlockRows` with its two-slot
comparison scheme: each row's stored values are written into slot `r`,
the bit for a used column is set iff the two slots now disagree there
(`columnStoredVal[0][c].n != columnStoredVal[1][c].n`), and `r` toggles
after every row.  Slot 0 starts zeroed (`columnStoredVal[0][k].n = 0`);
`r` starts at 1. -/
def writeBlockRowsGo (used : List Nat) (size : Nat → Nat) (storedOf : List (List Nat) → Nat → Nat)
    (slot0 slot1 : Nat → Nat) (r : Bool) : List (List (List Nat)) → List (List Nat)
  | [] => []
  | row :: rows =>
    let cur := storedOf row
    let slot0b := if r then slot0 else overwriteUsed slot0 used cur
    let slot1b := if r then overwriteUsed slot1 used cur else slot1
    let cells := used.map (fun c => (decide (slot0b c ≠ slot1b c), cur c, size c))
    packRow cells :: writeBlockRowsGo used size storedOf slot0b slot1b (! r) rows

def writeBlockRows (used : List Nat) (size : Nat → Nat)
    (storedOf : List (List Nat) → Nat → Nat) (rows : List (List (List Nat))) : List (List Nat) :=
  writeBlockRowsGo used size storedOf (fun _ => 0) (fun _ => 0) true rows

/-- Specification form of the row loop: each row is packed against the
stored values of the previous row, starting from an all-zero vector. -/
def specRows (used : List Nat) (size : Nat → Nat) (storedOf : List (List Nat) → Nat → Nat)
    (prev : Nat → Nat) : List (List (List Nat)) → List (List Nat)
  | [] => []
  | row :: rows =>
    let cur := storedOf row
    packRow (used.map (fun c => (decide (cur c ≠ prev c), cur c, size c)))
      :: specRows used size storedOf cur rows

theorem writeBlockRowsGo_eq_specRows (used : List Nat) (size : Nat → Nat)
    (storedOf : List (List Nat) → Nat → Nat) (rows : List (List (List Nat))) :
    ∀ (slot0 slot1 prev : Nat → Nat) (r : Bool),
      (∀ c ∈ used, (if r then slot0 c else slot1 c) = prev c) →
      writeBlockRowsGo used size storedOf slot0 slot1 r rows
        = specRows used size storedOf prev rows := by
  induction rows with
  | nil => intro slot0 slot1 prev r _; rfl
  | cons row rows ih =>
    intro slot0 slot1 prev r hinv
    simp only [writeBlockRowsGo, specRows]
    refine List.cons_eq_cons.mpr ⟨?_, ?_⟩
    · congr 1
      apply List.map_congr_left
      intro c hc
      have hprev := hinv c hc
      cases r with
      | false =>
        simp only [Bool.false_eq_true, if_false] at hprev ⊢
        simp only [overwriteUsed, if_pos hc]
        rw [hprev]
      | true =>
        simp only [if_true] at hprev ⊢
        simp only [overwriteUsed, if_pos hc]
        rw [hprev]
        rw [show decide (prev c ≠ storedOf row c) = decide (storedOf row c ≠ prev c) from
          decide_eq_decide.mpr ne_comm]
    · apply ih
      intro c hc
      cases r with
      | true => simp [overwriteUsed, if_pos hc]
      | false => simp [overwriteUsed, if_pos hc]

/-! ### Bit-level characterization of `packRow` -/

theorem getD_set_ne (l : List Nat) (i j v : Nat) (h : i ≠ j) :
    (l.set i v).getD j 0 = l.getD j 0 := by
  unfold List.getD
  rw [List.get?_eq_getElem?, List.get?_eq_getElem?, List.getElem?_set_ne h]

theorem getD_set_eq (l : List Nat) (i v : Nat) (h : i < l.length) :
    (l.set i v).getD i 0 = v := by
  unfold List.getD
  rw [List.get?_eq_getElem?, List.getElem?_set_eq_of_lt v h]
  rfl

theorem getD_append_left (l1 l2 : List Nat) (j : Nat) (h : j < l1.length) :
    (l1 ++ l2).getD j 0 = l1.getD j 0 := by
  unfold List.getD
  rw [List.get?_eq_getElem?, List.get?_eq_getElem?, List.getElem?_append, if_pos h]

theorem setBit_length (bm : List Nat) (p : Nat) : (setBit bm p).length = bm.length := by
  simp [setBit]

/-- Setting bit `p` ORs `2 ^ (p % 8)` into byte `p / 8` and leaves every
other bit alone. -/
theorem setBit_testBit (bm : List Nat) (p j k : Nat) (hp : p / 8 < bm.length) :
    ((setBit bm p).getD j 0).testBit k
      = (((bm.getD j 0).testBit k) || decide (p / 8 = j ∧ p % 8 = k)) := by
  unfold setBit
  by_cases hj : p / 8 = j
  · subst hj
    rw [getD_set_eq _ _ _ hp, Nat.testBit_or, Nat.shiftLeft_eq, Nat.one_mul,
      Nat.testBit_two_pow]
    by_cases hk : p % 8 = k
    · simp [hk]
    · simp [hk]
  · rw [getD_set_ne _ _ _ _ hj]
    simp [hj]

/-- The positions (relative to a starting index) of the cells whose
`differs` flag is set. -/
def flaggedPositions : List (Bool × Nat × Nat) → Nat → List Nat
  | [], _ => []
  | (d, _, _) :: rest, u =>
    if d then u :: flaggedPositions rest (u + 1) else flaggedPositions rest (u + 1)

theorem mem_flaggedPositions (cells : List (Bool × Nat × Nat)) :
    ∀ (u0 x : Nat), x ∈ flaggedPositions cells u0
      ↔ ∃ i, i < cells.length ∧ x = u0 + i ∧ (cells.getD i (false, 0, 0)).1 = true := by
  induction cells with
  | nil => intro u0 x; simp [flaggedPositions]
  | cons c rest ih =>
    intro u0 x
    obtain ⟨d, stored, size⟩ := c
    simp only [flaggedPositions]
    by_cases hd : d = true
    · subst hd
      rw [if_pos rfl]
      constructor
      · intro hx
        rcases List.mem_cons.mp hx with rfl | hx2
        · exact ⟨0, by simp⟩
        · obtain ⟨i, hi, hxi, hflag⟩ := (ih (u0 + 1) x).mp hx2
          exact ⟨i + 1, by simpa using hi, by omega, by simpa using hflag⟩
      · rintro ⟨i, hi, rfl, hflag⟩
        cases i with
        | zero => simp
        | succ i =>
          apply List.mem_cons_of_mem
          rw [ih (u0 + 1) _]
          exact ⟨i, by simpa using hi, by omega, by simpa using hflag⟩
    · have hd2 : d = false := by revert hd; cases d <;> simp
      subst hd2
      rw [if_neg (by simp)]
      rw [ih (u0 + 1) x]
      constructor
      · rintro ⟨i, hi, rfl, hflag⟩
        exact ⟨i + 1, by simpa using hi, by omega, by simpa using hflag⟩
      · rintro ⟨i, hi, rfl, hflag⟩
        cases i with
        | zero => simp at hflag
        | succ i =>
          exact ⟨i, by simpa using hi, by omega, by simpa using hflag⟩

theorem packRowGo_bitmap (cells : List (Bool × Nat × Nat)) :
    ∀ (u : Nat) (bm pl : List Nat),
      (packRowGo cells u bm pl).1 = (flaggedPositions cells u).foldl setBit bm := by
  induction cells with
  | nil => intro u bm pl; rfl
  | cons c rest ih =>
    intro u bm pl
    obtain ⟨d, stored, size⟩ := c
    simp only [packRowGo, flaggedPositions]
    by_cases hd : d = true
    · subst hd
      rw [if_pos rfl, if_pos rfl, ih]
      rfl
    · have hd2 : d = false := by revert hd; cases d <;> simp
      subst hd2
      rw [if_neg (by simp), if_neg (by simp), ih]

theorem packRowGo_payload (cells : List (Bool × Nat × Nat)) :
    ∀ (u : Nat) (bm pl : List Nat),
      (packRowGo cells u bm pl).2
        = pl ++ (cells.filter (fun c => c.1)).flatMap (fun c => leBytes c.2.2 c.2.1) := by
  induction cells with
  | nil => intro u bm pl; simp [packRowGo]
  | cons c rest ih =>
    intro u bm pl
    obtain ⟨d, stored, size⟩ := c
    simp only [packRowGo]
    by_cases hd : d = true
    · subst hd
      rw [if_pos rfl, ih]
      simp [List.filter_cons]
    · have hd2 : d = false := by revert hd; cases d <;> simp
      subst hd2
      rw [if_neg (by simp), ih]
      simp [List.filter_cons]

theorem foldl_setBit_length (ps : List Nat) : ∀ bm : List Nat,
    (ps.foldl setBit bm).length = bm.length := by
  induction ps with
  | nil => intro bm; rfl
  | cons p ps ih => intro bm; rw [List.foldl_cons, ih, setBit_length]

theorem foldl_setBit_testBit (ps : List Nat) :
    ∀ (bm : List Nat) (j k : Nat), (∀ p ∈ ps, p / 8 < bm.length) →
      ((ps.foldl setBit bm).getD j 0).testBit k
        = ((bm.getD j 0).testBit k || decide ((8 * j + k) ∈ ps ∧ k < 8)) := by
  induction ps with
  | nil => intro bm j k _; simp
  | cons p ps ih =>
    intro bm j k hbound
    rw [List.foldl_cons, ih (setBit bm p) j k
      (fun q hq => by rw [setBit_length]; exact hbound q (List.mem_cons_of_mem _ hq))]
    rw [setBit_testBit bm p j k (hbound p (List.mem_cons_self _ _))]
    have hiff : (p / 8 = j ∧ p % 8 = k) ↔ (8 * j + k = p ∧ k < 8) := by
      constructor
      · rintro ⟨h1, h2⟩
        refine ⟨?_, ?_⟩
        · omega
        · omega
      · rintro ⟨h1, h2⟩
        constructor
        · omega
        · omega
    by_cases hp : 8 * j + k = p ∧ k < 8
    · simp [List.mem_cons, hiff, hp, hp.1, hp.2]
    · simp only [List.mem_cons]
      by_cases hmem : (8 * j + k ∈ ps ∧ k < 8)
      · simp [hiff, hp, hmem, hmem.1, hmem.2]
      · simp [hiff, hp, hmem]
        tauto

theorem packRow_length_bitmap (cells : List (Bool × Nat × Nat)) :
    ((packRowGo cells 0 (List.replicate ((cells.length + 7) / 8) 0) []).1).length
      = (cells.length + 7) / 8 := by
  rw [packRowGo_bitmap, foldl_setBit_length]
  simp

/-- Bit `u` of the packed row lives in byte `u / 8` at bit position
`u mod 8` and equals the `differs` flag of cell `u`. -/
theorem packRow_bit (cells : List (Bool × Nat × Nat)) (u : Nat) (hu : u < cells.length) :
    ((packRow cells).getD (u / 8) 0).testBit (u % 8)
      = (cells.getD u (false, 0, 0)).1 := by
  unfold packRow
  have hdiv : u / 8 < (cells.length + 7) / 8 := by
    have h1 : u / 8 + 1 = (u + 8) / 8 := by omega
    have h2 : (u + 8) / 8 ≤ (cells.length + 7) / 8 := Nat.div_le_div_right (by omega)
    omega
  rw [getD_append_left _ _ _ (by rw [packRow_length_bitmap]; exact hdiv)]
  rw [packRowGo_bitmap]
  rw [foldl_setBit_testBit _ _ _ _ (by
    intro p hp
    rw [List.length_replicate]
    obtain ⟨i, hi, rfl, _⟩ := (mem_flaggedPositions cells 0 p).mp hp
    have : (0 + i) / 8 < (cells.length + 7) / 8 := by
      have h1 : (0 + i) / 8 + 1 = (0 + i + 8) / 8 := by omega
      have h2 : (0 + i + 8) / 8 ≤ (cells.length + 7) / 8 := Nat.div_le_div_right (by omega)
      omega
    exact this)]
  have hrepl : (List.replicate ((cells.length + 7) / 8) 0).getD (u / 8) 0 = 0 := by
    unfold List.getD
    rw [List.get?_eq_getElem?, List.getElem?_replicate]
    by_cases h : u / 8 < (cells.length + 7) / 8
    · simp [h]
    · simp [h]
  rw [hrepl, Nat.zero_testBit, Bool.false_or]
  have hmem : ((8 * (u / 8) + u % 8) ∈ flaggedPositions cells 0 ∧ u % 8 < 8)
      ↔ (cells.getD u (false, 0, 0)).1 = true := by
    rw [show 8 * (u / 8) + u % 8 = u from by omega]
    constructor
    · rintro ⟨hin, _⟩
      obtain ⟨i, hi, hei, hflag⟩ := (mem_flaggedPositions cells 0 u).mp hin
      have hiu : i = u := by omega
      subst hiu
      exact hflag
    · intro hflag
      exact ⟨(mem_flaggedPositions cells 0 u).mpr ⟨u, hu, by omega, hflag⟩,
        Nat.mod_lt _ (by norm_num)⟩
  cases hflag : (cells.getD u (false, 0, 0)).1 with
  | true =>
    exact decide_eq_true (hmem.mpr hflag)
  | false =>
    apply decide_eq_false
    intro hh
    have hcontra := hmem.mp hh
    rw [hflag] at hcontra
    exact absurd hcontra (by simp)

/-- The payload of the packed row: exactly the differing cells
contribute, in cell order, `size_bytes` little-endian bytes each. -/
theorem packRow_payload (cells : List (Bool × Nat × Nat)) :
    (packRow cells).drop ((cells.length + 7) / 8)
      = (cells.filter (fun c => c.1)).flatMap (fun c => leBytes c.2.2 c.2.1) := by
  have hl := packRow_length_bitmap cells
  have h1 : List.drop ((cells.length + 7) / 8)
      (packRowGo cells 0 (List.replicate ((cells.length + 7) / 8) 0) []).1 = [] :=
    List.drop_eq_nil_of_le (by rw [hl])
  dsimp only [packRow]
  rw [List.drop_append_eq_append_drop, h1, List.nil_append, hl, Nat.sub_self, List.drop_zero]
  rw [packRowGo_payload]
  simp

/-! ### Multi-block control flow (`ConvertToZDW::processFile`) -/

inductive EncErr
  | outOfMemory
  | wrongNumOfColumnsOnARow
  deriving DecidableEq, Repr

/-- The fresh per-block pass-1 state: an empty dictionary and cleared
`minmaxset` (`memset(minmaxset, 0, numColumns)`, `uniques.clear()`). -/
def pass1 (memLow : Nat → Bool) (types : List ColType) (rows : List (List (List Nat))) :
    Nat × DictState × List ColStats × InStatus :=
  parseInputRows memLow types rows DictState.empty
    (List.replicate types.length ColStats.initial) 0

theorem parseInputRows_count_le (memLow : Nat → Bool) (types : List ColType)
    (rows : List (List (List Nat))) :
    ∀ (st : DictState) (stats : List ColStats) (n0 : Nat),
      (parseInputRows memLow types rows st stats n0).1 ≤ n0 + rows.length := by
  induction rows with
  | nil => intro st stats n0; simp [parseInputRows]
  | cons row rows ih =>
    intro st stats n0
    simp only [parseInputRows]
    by_cases harr : row.length ≠ types.length
    · rw [if_pos harr]
      simp
    · rw [if_neg harr]
      by_cases hok : (processRowCols memLow types row st stats).2.2 = true
      · simp only [hok, if_true]
        have hih := ih (processRowCols memLow types row st stats).1
          (processRowCols memLow types row st stats).2.1 (n0 + 1)
        simp only [List.length_cons]
        omega
      · simp only [Bool.not_eq_true] at hok
        simp only [hok, Bool.false_eq_true, if_false]
        simp

/-- The block loop of `ConvertToZDW::processFile`, recording for each
emitted block its row count and its `last_block` flag.  A pass that runs
out of memory with at least one row closes the block with flag `0` and
restarts (fresh dictionary, fresh stats) at the first uncounted row; a
pass that makes no progress at all yields `OUT_OF_MEMORY`; a clean empty
first pass writes no block ("Empty data file") and the result stays OK. -/
def processFileLoop (memLow : Nat → Bool) (types : List ColType)
    (rows : List (List (List Nat))) : Except EncErr (List (Nat × Bool)) :=
  match (pass1 memLow types rows).2.2.2 with
  | .wrongColumns => .error .wrongNumOfColumnsOnARow
  | .done =>
    if (pass1 memLow types rows).1 = 0 then .ok []
    else .ok [((pass1 memLow types rows).1, true)]
  | .notEnoughMemory =>
    if h : (pass1 memLow types rows).1 = 0 then .error .outOfMemory
    else
      match processFileLoop memLow types (rows.drop (pass1 memLow types rows).1) with
      | .error e => .error e
      | .ok blocks => .ok (((pass1 memLow types rows).1, false) :: blocks)
  termination_by rows.length
  decreasing_by
    cases hrows : rows with
    | nil =>
      exfalso
      apply h
      subst hrows
      rfl
    | cons a as =>
      have hle : (pass1 memLow types rows).1 ≤ rows.length := by
        have hcl := parseInputRows_count_le memLow types rows DictState.empty
          (List.replicate types.length ColStats.initial) 0
        simpa [pass1] using hcl
      subst hrows
      rw [List.length_drop]
      simp only [List.length_cons] at hle ⊢
      omega

end ZDW.Enc

namespace ZDW.Enc

/-! ### Case equations for `processFileLoop` -/

theorem processFileLoop_wrongCols (memLow : Nat → Bool) (types : List ColType)
    (rows : List (List (List Nat)))
    (h : (pass1 memLow types rows).2.2.2 = .wrongColumns) :
    processFileLoop memLow types rows = .error .wrongNumOfColumnsOnARow := by
  rw [processFileLoop, h]

theorem processFileLoop_doneEmpty (memLow : Nat → Bool) (types : List ColType)
    (rows : List (List (List Nat)))
    (h : (pass1 memLow types rows).2.2.2 = .done) (h0 : (pass1 memLow types rows).1 = 0) :
    processFileLoop memLow types rows = .ok [] := by
  rw [processFileLoop, h]
  simp [h0]

theorem processFileLoop_done (memLow : Nat → Bool) (types : List ColType)
    (rows : List (List (List Nat)))
    (h : (pass1 memLow types rows).2.2.2 = .done) (h0 : (pass1 memLow types rows).1 ≠ 0) :
    processFileLoop memLow types rows = .ok [((pass1 memLow types rows).1, true)] := by
  rw [processFileLoop, h]
  simp [h0]

theorem processFileLoop_oom (memLow : Nat → Bool) (types : List ColType)
    (rows : List (List (List Nat)))
    (h : (pass1 memLow types rows).2.2.2 = .notEnoughMemory)
    (h0 : (pass1 memLow types rows).1 = 0) :
    processFileLoop memLow types rows = .error .outOfMemory := by
  rw [processFileLoop, h]
  simp [h0]

theorem processFileLoop_rotate (memLow : Nat → Bool) (types : List ColType)
    (rows : List (List (List Nat)))
    (h : (pass1 memLow types rows).2.2.2 = .notEnoughMemory)
    (h0 : (pass1 memLow types rows).1 ≠ 0) :
    processFileLoop memLow types rows
      = Except.map (fun blocks => ((pass1 memLow types rows).1, false) :: blocks)
          (processFileLoop memLow types (rows.drop (pass1 memLow types rows).1)) := by
  rw [processFileLoop, h]
  rw [dif_neg h0]
  cases processFileLoop memLow types (rows.drop (pass1 memLow types rows).1) with
  | error e => rfl
  | ok blocks => rfl

/-- If no tail of the input makes pass 1 stall with zero counted rows,
the block loop never reports `outOfMemory`. -/
theorem processFileLoop_no_oom (memLow : Nat → Bool) (types : List ColType) :
    ∀ (n : Nat) (rows : List (List (List Nat))), rows.length ≤ n →
      (∀ i : Nat, ¬ ((pass1 memLow types (rows.drop i)).2.2.2 = InStatus.notEnoughMemory
          ∧ (pass1 memLow types (rows.drop i)).1 = 0)) →
      processFileLoop memLow types rows ≠ .error .outOfMemory := by
  intro n
  induction n with
  | zero =>
    intro rows hlen hno
    have hnil : rows = [] := List.eq_nil_of_length_eq_zero (by omega)
    subst hnil
    rw [processFileLoop_doneEmpty memLow types [] rfl rfl]
    simp
  | succ n ih =>
    intro rows hlen hno
    cases hst : (pass1 memLow types rows).2.2.2 with
    | wrongColumns =>
      rw [processFileLoop_wrongCols memLow types rows hst]
      simp
    | done =>
      by_cases h0 : (pass1 memLow types rows).1 = 0
      · rw [processFileLoop_doneEmpty memLow types rows hst h0]
        simp
      · rw [processFileLoop_done memLow types rows hst h0]
        simp
    | notEnoughMemory =>
      by_cases h0 : (pass1 memLow types rows).1 = 0
      · exfalso
        exact hno 0 (by rw [List.drop_zero]; exact ⟨hst, h0⟩)
      · rw [processFileLoop_rotate memLow types rows hst h0]
        have hne : rows ≠ [] := by
          intro hr
          rw [hr] at hst
          cases hst
        have hcle : (pass1 memLow types rows).1 ≤ rows.length := by
          have hcl := parseInputRows_count_le memLow types rows DictState.empty
            (List.replicate types.length ColStats.initial) 0
          simpa [pass1] using hcl
        have hlen2 : (rows.drop (pass1 memLow types rows).1).length ≤ n := by
          rw [List.length_drop]
          have : 1 ≤ rows.length := by
            cases rows with
            | nil => exact absurd rfl hne
            | cons a as => simp
          omega
        have hno2 : ∀ i : Nat,
            ¬ (((pass1 memLow types ((rows.drop (pass1 memLow types rows).1).drop i)).2.2.2
                  = InStatus.notEnoughMemory)
              ∧ (pass1 memLow types ((rows.drop (pass1 memLow types rows).1).drop i)).1 = 0) := by
          intro i
          rw [List.drop_drop]
          exact hno ((pass1 memLow types rows).1 + i)
        have hrec := ih (rows.drop (pass1 memLow types rows).1) hlen2 hno2
        cases hr : processFileLoop memLow types (rows.drop (pass1 memLow types rows).1) with
        | error e =>
          rw [hr] at hrec
          simp only [Except.map]
          intro hcontra
          cases hcontra
          exact hrec rfl
        | ok blocks =>
          simp [Except.map]

/-! ### Block and file byte assembly
(`ConvertToZDW::processFile` / `writeLookupColumnStats` / `writeBlockRows`) -/

open ZDW.Dict in
/-- The byte image of one block, assembled from the pass-1 results:
block header (`num_rows: u32`, `line_length: u32`, `last_block: u8`),
`Dictionary::write` output, the per-column byte sizes, the 8-byte minima
of the used columns, then the encoded rows. -/
def blockBytes (types : List ColType) (d : List (List Nat)) (stats : List ColStats)
    (rows : List (List (List Nat))) (numRows lineLen : Nat) (lastFlag : Bool) : List Nat :=
  let offsetSize := dictBytesInOffset d
  let szbase := (List.zip types stats).map (fun p => finalizeCol p.1 offsetSize p.2)
  let used := (List.range types.length).filter
    (fun c => (stats.getD c ColStats.initial).minmaxset)
  let size := fun c => (szbase.getD c (0, 0)).1
  let storedOf := fun (row : List (List Nat)) (c : Nat) =>
    storedValOf (types.getD c .varchar) (dictOffset d) (szbase.getD c (0, 0)).2 (row.getD c [])
  leBytes 4 numRows ++ leBytes 4 lineLen ++ [if lastFlag then 1 else 0]
    ++ dictWriteBytes d
    ++ szbase.map (fun p => p.1)
    ++ used.flatMap (fun c => leBytes 8 (szbase.getD c (0, 0)).2)
    ++ (writeBlockRows used size storedOf rows).flatten

/-- `ConvertToZDW::CONVERT_ZDW_CURRENT_VERSION`. -/
def CONVERT_ZDW_CURRENT_VERSION : Nat := 11

/-- The metadata block written by `processFile`: a `u32` byte length then
`key \0 value \0` pairs. -/
def metadataBytes (md : List (List Nat × List Nat)) : List Nat :=
  leBytes 4 ((md.map (fun kv => kv.1.length + kv.2.length + 2)).sum)
    ++ md.flatMap (fun kv => kv.1 ++ [0] ++ kv.2 ++ [0])

/-- Column names on the wire: each null-terminated, then one extra null. -/
def columnNamesBytes (names : List (List Nat)) : List Nat :=
  names.flatMap (fun nm => nm ++ [0]) ++ [0]

/-- The whole file produced by `processFile` for an input whose rows all
fit in one block (no memory pressure): version `u16` (= 11), metadata
block, column names, column type bytes, column char sizes (`u16` each),
then the single terminal block. -/
def encodeFileNoLimit (names : List (List Nat)) (types : List ColType)
    (charSizes : List Nat) (md : List (List Nat × List Nat))
    (rows : List (List (List Nat))) (lineLen : Nat) : List Nat :=
  let p := pass1 (fun _ => false) types rows
  leBytes 2 CONVERT_ZDW_CURRENT_VERSION
    ++ metadataBytes md
    ++ columnNamesBytes names
    ++ types.map ColType.code
    ++ charSizes.flatMap (leBytes 2)
    ++ blockBytes types p.2.1.entries p.2.2.1 rows p.1 lineLen true

end ZDW.Enc

namespace ZDW.Dec

/-! ## Decoder (`UnconvertFromZDW.cpp`)

The input stream is a byte list; `readBytes` on a short read is modelled
as the `GZREAD_FAILED` exit.  The embedding covers the current block
format (version ≥ 9 sorted-buffer dictionary, no pre-v8 visitor
dictionary); the pre-v4 `DECIMAL` branch formats through `double`
arithmetic and is kept abstract as the `oldDecimal` parameter. -/

inductive ERR
  | GZREAD_FAILED
  | UNSUPPORTED_ZDW_VERSION_ERR
  | ZDW_LONGER_THAN_EXPECTED_ERR
  | ROW_COUNT_ERR
  | CORRUPTED_DATA_ERROR
  | BAD_REQUESTED_COLUMN
  | NO_COLUMNS_TO_OUTPUT
  deriving DecidableEq, Repr

/-- `UnconvertFromZDW_Base::UNCONVERT_ZDW_VERSION`: the highest file
version this decoder supports. -/
def UNCONVERT_ZDW_VERSION : Nat := 10

/-- `readBytes(buf, n)`: take `n` bytes or fail the whole unconvert. -/
def readN (n : Nat) (bs : List Nat) : Except ERR (List Nat × List Nat) :=
  if n ≤ bs.length then .ok (bs.take n, bs.drop n) else .error .GZREAD_FAILED

/-- Read an `n`-byte little-endian unsigned integer. -/
def readLE (n : Nat) (bs : List Nat) : Except ERR (Nat × List Nat) :=
  (readN n bs).map (fun p => (leVal p.1, p.2))

/-- Read one null-terminated string (the byte-at-a-time loop in
`readHeader`). -/
def readCString : List Nat → Except ERR (List Nat × List Nat)
  | [] => .error .GZREAD_FAILED
  | b :: rest =>
    if b = 0 then .ok ([], rest)
    else (readCString rest).map (fun p => (b :: p.1, p.2))

theorem readCString_rest_lt (bs name rest : List Nat)
    (h : readCString bs = .ok (name, rest)) : rest.length < bs.length := by
  induction bs generalizing name with
  | nil => simp [readCString] at h
  | cons b bb ih =>
    simp only [readCString] at h
    by_cases hb : b = 0
    · rw [if_pos hb] at h
      cases h
      simp
    · rw [if_neg hb] at h
      cases hc : readCString bb with
      | error e => rw [hc] at h; simp [Except.map] at h
      | ok p =>
        obtain ⟨pn, pr⟩ := p
        rw [hc] at h
        simp only [Except.map] at h
        cases h
        have := ih pn hc
        simp
        omega

/-- Column-name parsing: null-terminated names until an empty name. -/
def readColumnNames (bs : List Nat) : Except ERR (List (List Nat) × List Nat) :=
  match h : readCString bs with
  | .error e => .error e
  | .ok (name, rest) =>
    if name.isEmpty then .ok ([], rest)
    else
      match readColumnNames rest with
      | .error e => .error e
      | .ok (names, rest2) => .ok (name :: names, rest2)
  termination_by bs.length
  decreasing_by
    exact readCString_rest_lt bs name rest h

structure Header where
  version : Nat
  columnNames : List (List Nat)
  columnTypes : List Nat
  columnCharSizes : List Nat
  deriving DecidableEq, Repr

/-- `UnconvertFromZDW_Base::readHeader`: version `u16` (rejecting
anything above `UNCONVERT_ZDW_VERSION`), pre-v3 file attributes, column
names, column type bytes, and (version ≥ 7) the `u16` char sizes. -/
def readHeader (bs : List Nat) : Except ERR (Header × List Nat) := do
  let (version, bs) ← readLE 2 bs
  if version > UNCONVERT_ZDW_VERSION then
    throw .UNSUPPORTED_ZDW_VERSION_ERR
  else
    let bs ← (if version ≤ 2 then do
      let (_, bs) ← readLE 4 bs
      let (_, bs) ← readLE 2 bs
      pure bs
    else pure bs)
    let (names, bs) ← readColumnNames bs
    let (typeBytes, bs) ← readN names.length bs
    if 7 ≤ version then
      let (charBytes, bs) ← readN (names.length * 2) bs
      pure (⟨version, names, typeBytes,
        (List.range names.length).map (fun i => leVal ((charBytes.drop (2 * i)).take 2))⟩, bs)
    else
      pure (⟨version, names, typeBytes, []⟩, bs)

end ZDW.Dec

namespace ZDW.Dec

theorem readCString_err (bs : List Nat) (e : ERR)
    (h : readCString bs = .error e) : e = .GZREAD_FAILED := by
  induction bs with
  | nil =>
    simp only [readCString] at h
    cases h
    rfl
  | cons b bb ih =>
    simp only [readCString] at h
    by_cases hb : b = 0
    · rw [if_pos hb] at h
      cases h
    · rw [if_neg hb] at h
      cases hc : readCString bb with
      | error e2 =>
        rw [hc] at h
        simp only [Except.map] at h
        cases h
        exact ih hc
      | ok p =>
        rw [hc] at h
        simp only [Except.map] at h
        cases h

theorem readColumnNames_err : ∀ (n : Nat) (bs : List Nat), bs.length ≤ n →
    ∀ e : ERR, readColumnNames bs = .error e → e = .GZREAD_FAILED := by
  intro n
  induction n with
  | zero =>
    intro bs hlen e h
    have hnil : bs = [] := List.eq_nil_of_length_eq_zero (by omega)
    subst hnil
    unfold readColumnNames at h
    split at h
    · rename_i e2 hc
      cases h
      exact readCString_err [] e hc
    · rename_i name rest hc
      simp only [readCString] at hc
      cases hc
  | succ n ih =>
    intro bs hlen e h
    unfold readColumnNames at h
    split at h
    · rename_i e2 hc
      cases h
      exact readCString_err bs e hc
    · rename_i name rest hc
      by_cases hemp : name.isEmpty
      · rw [if_pos hemp] at h
        cases h
      · rw [if_neg hemp] at h
        have hlt : rest.length < bs.length := readCString_rest_lt bs name rest hc
        cases hrec : readColumnNames rest with
        | error e2 =>
          rw [hrec] at h
          cases h
          exact ih rest (by omega) e hrec
        | ok p =>
          rw [hrec] at h
          cases h

theorem readLE_err (n : Nat) (bs : List Nat) (e : ERR)
    (h : readLE n bs = .error e) : e = .GZREAD_FAILED := by
  unfold readLE readN at h
  by_cases hl : n ≤ bs.length
  · rw [if_pos hl] at h
    simp [Except.map] at h
  · rw [if_neg hl] at h
    simp only [Except.map] at h
    cases h
    rfl

theorem readN_err (n : Nat) (bs : List Nat) (e : ERR)
    (h : readN n bs = .error e) : e = .GZREAD_FAILED := by
  unfold readN at h
  by_cases hl : n ≤ bs.length
  · rw [if_pos hl] at h
    cases h
  · rw [if_neg hl] at h
    cases h
    rfl

/-- `readHeader` fails with `UNSUPPORTED_ZDW_VERSION_ERR` only at the
version gate; every other failure is a short read (`GZREAD_FAILED`). -/
theorem readHeader_err (bs : List Nat) (e : ERR) (h : readHeader bs = .error e) :
    e = .GZREAD_FAILED
    ∨ (e = .UNSUPPORTED_ZDW_VERSION_ERR ∧ 2 ≤ bs.length
        ∧ leVal (bs.take 2) > UNCONVERT_ZDW_VERSION) := by
  unfold readHeader at h
  cases h1 : readLE 2 bs with
  | error e1 =>
    simp only [h1, bind, Except.bind] at h
    cases h
    exact Or.inl (readLE_err 2 bs e h1)
  | ok p =>
    obtain ⟨version, bs1⟩ := p
    simp only [h1, bind, Except.bind] at h
    by_cases hv : version > UNCONVERT_ZDW_VERSION
    · rw [if_pos hv] at h
      simp only [throw, throwThe, MonadExceptOf.throw] at h
      cases h
      right
      unfold readLE readN at h1
      by_cases hl : 2 ≤ bs.length
      · rw [if_pos hl] at h1
        simp only [Except.map] at h1
        cases h1
        exact ⟨rfl, hl, hv⟩
      · rw [if_neg hl] at h1
        simp [Except.map] at h1
    · rw [if_neg hv] at h
      left
      by_cases hv2 : version ≤ 2
      · rw [if_pos hv2] at h
        cases h3 : readLE 4 bs1 with
        | error e3 =>
          simp only [h3, bind, Except.bind] at h
          cases h
          exact readLE_err _ _ _ h3
        | ok q =>
          simp only [h3, bind, Except.bind] at h
          cases h4 : readLE 2 q.2 with
          | error e4 =>
            simp only [h4] at h
            cases h
            exact readLE_err _ _ _ h4
          | ok r =>
            simp only [h4, pure, Except.pure] at h
            cases h5 : readColumnNames r.2 with
            | error e5 =>
              simp only [h5] at h
              cases h
              exact readColumnNames_err r.2.length r.2 (Nat.le_refl _) e h5
            | ok q =>
              obtain ⟨names, bs3⟩ := q
              simp only [h5] at h
              cases h6 : readN names.length bs3 with
              | error e6 =>
                simp only [h6] at h
                cases h
                exact readN_err _ _ _ h6
              | ok r2 =>
                obtain ⟨typeBytes, bs4⟩ := r2
                simp only [h6] at h
                by_cases h7 : 7 ≤ version
                · rw [if_pos h7] at h
                  cases h8 : readN (names.length * 2) bs4 with
                  | error e8 =>
                    simp only [h8] at h
                    cases h
                    exact readN_err _ _ _ h8
                  | ok w =>
                    simp only [h8, pure, Except.pure] at h
                    cases h
                · rw [if_neg h7] at h
                  cases h
      · rw [if_neg hv2] at h
        simp only [bind, Except.bind, pure, Except.pure] at h
        cases h5 : readColumnNames bs1 with
        | error e5 =>
          simp only [h5] at h
          cases h
          exact readColumnNames_err bs1.length bs1 (Nat.le_refl _) e h5
        | ok q =>
          obtain ⟨names, bs3⟩ := q
          simp only [h5] at h
          cases h6 : readN names.length bs3 with
          | error e6 =>
            simp only [h6] at h
            cases h
            exact readN_err _ _ _ h6
          | ok r2 =>
            obtain ⟨typeBytes, bs4⟩ := r2
            simp only [h6] at h
            by_cases h7 : 7 ≤ version
            · rw [if_pos h7] at h
              cases h8 : readN (names.length * 2) bs4 with
              | error e8 =>
                simp only [h8] at h
                cases h
                exact readN_err _ _ _ h8
              | ok w =>
                simp only [h8, pure, Except.pure] at h
                cases h
            · rw [if_neg h7] at h
              cases h


open ZDW.Enc (W64)

/-! ### Block header (`parseBlockHeader`: `readLineLength`,
`readDictionary`, `readColumnFieldStats`) -/

structure BlockHeader where
  numLines : Nat
  lineLen : Nat
  lastBlock : Nat
  dictSize : Nat
  dictBuf : List Nat
  columnSize : List Nat
  columnBase : List Nat
  deriving DecidableEq, Repr

/-- The per-column 8-byte minima: one `u64` read for every column whose
size byte is non-zero, `columnBase[c] = 0` otherwise. -/
def readColumnBases : List Nat → List Nat → Except ERR (List Nat × List Nat)
  | [], bs => .ok ([], bs)
  | sz :: sizes, bs =>
    if sz ≠ 0 then do
      let (v, bs) ← readLE 8 bs
      let (vs, bs) ← readColumnBases sizes bs
      pure (v :: vs, bs)
    else do
      let (vs, bs) ← readColumnBases sizes bs
      pure (0 :: vs, bs)

/-- `parseBlockHeader` for the current block format (version ≥ 9, so the
dictionary is the sorted byte buffer and there is no visitor
dictionary; version ≥ 6, so the line length is a `u32`). -/
def parseBlockHeaderD (numColumnsInExportFile : Nat) (bs : List Nat) :
    Except ERR (BlockHeader × List Nat) := do
  let (numLines, bs) ← readLE 4 bs
  let (lineLen, bs) ← readLE 4 bs
  let (lastBlock, bs) ← readLE 1 bs
  let (indexSize, bs) ← readLE 1 bs
  let (dictSize, bs) ← (if indexSize ≠ 0 then readLE indexSize bs else pure (0, bs))
  let (dictBuf, bs) ← readN dictSize bs
  let (columnSize, bs) ← readN numColumnsInExportFile bs
  let (columnBase, bs) ← readColumnBases columnSize bs
  pure (⟨numLines, lineLen, lastBlock, dictSize, dictBuf, columnSize, columnBase⟩, bs)

/-! ### Row reconstruction (`readNextRow`) -/

/-- `GetWord` for version ≥ 9: the null-terminated string starting at the
given byte offset of the dictionary buffer. -/
def GetWord (dictBuf : List Nat) (index : Nat) : List Nat :=
  (dictBuf.drop index).takeWhile (fun b => b ≠ 0)

/-- `llutoa`: decimal digits of an unsigned value (`"0"` for zero). -/
def llutoaBytes (v : Nat) : List Nat :=
  if v < 10 then [48 + v] else llutoaBytes (v / 10) ++ [48 + v % 10]
  termination_by v
  decreasing_by
    simp only [Nat.div_lt_iff_lt_mul (by norm_num : 0 < 10)]
    omega

/-- `lltoa`: the same value reinterpreted as a signed 64-bit integer. -/
def lltoaBytes (v : Nat) : List Nat :=
  if v < 2 ^ 63 then llutoaBytes v else 45 :: llutoaBytes (2 ^ 64 - v)

/-- `UnconvertFromZDW::outputDefault`: what a column with no stored value
prints.  String-like and CHAR columns print nothing (`writeEmpty`);
numeric columns print `"0"`; `DECIMAL` prints `"0.000000000000"`. -/
def outputDefault (t : ColType) : List Nat :=
  match t with
  | .char1 | .varchar | .text | .tinytext | .mediumtext | .longtext
  | .datetime | .char2 => []
  | .visidHigh => [48]
  | .visidLow => []
  | .tiny | .tinySigned | .short | .shortSigned
  | .long | .longSigned | .longlong | .longlongSigned => [48]
  | .decimal => [48, 46] ++ List.replicate 12 48

/-- The per-column output switch of `readNextRow`, given the column's
(already updated) stored value `valN`.  `oldDecimal` stands for the
pre-v4 `sprintf("%0.12lf", ...)` branch, which goes through `double`
arithmetic and is kept abstract. -/
def decodeFieldOutput (version : Nat) (oldDecimal : Nat → List Nat) (t : ColType)
    (dictSize : Nat) (dictBuf : List Nat) (base valN : Nat) : Except ERR (List Nat) :=
  if t.isStringLike then
    if valN ≠ 0 then
      let index := valN + base
      if index > dictSize then .error .CORRUPTED_DATA_ERROR
      else .ok (GetWord dictBuf index)
    else .ok (outputDefault t)
  else if t = .char1 then
    if valN ≠ 0 then
      if 5 ≤ version then
        let chartuple := (valN + base) % W64
        let b0 := chartuple % 256
        if b0 ≠ 92 then
          if b0 = 0 then .ok (outputDefault .char1) else .ok [b0]
        else .ok [92, chartuple / 256 % 256]
      else .ok [valN % 256]
    else .ok (outputDefault .char1)
  else if t.isNumeric then
    match t with
    | .tiny | .short | .long | .longlong =>
      .ok (llutoaBytes (if valN ≠ 0 then (valN + base) % W64 else 0))
    | _ =>
      .ok (lltoaBytes (if valN ≠ 0 then (valN + base) % W64 else 0))
  else if t = .decimal then
    if valN ≠ 0 then
      if 4 ≤ version then
        let index := valN + base
        if index > dictSize then .error .CORRUPTED_DATA_ERROR
        else .ok (GetWord dictBuf index)
      else .ok (oldDecimal ((valN + base) % W64))
    else .ok (outputDefault .decimal)
  else
    .ok []

/-- One row of value updates: walk the columns with the bit counter `u`
over the non-empty (`columnSize[c] != 0`) columns; a set bit means the
column's fresh little-endian bytes are read (`val.n = 0` then low bytes),
a clear bit keeps the previous value. -/
def readRowVals (setBytes : List Nat) :
    List Nat → List Nat → Nat → List Nat → Except ERR (List Nat × List Nat)
  | [], _, _, bs => .ok ([], bs)
  | _ :: sizes, [], u, bs =>
    (readRowVals setBytes sizes [] u bs).map (fun p => (0 :: p.1, p.2))
  | sz :: sizes, pv :: prevs, u, bs =>
    if sz = 0 then
      (readRowVals setBytes sizes prevs u bs).map (fun p => (pv :: p.1, p.2))
    else if (setBytes.getD (u / 8) 0).testBit (u % 8) then do
      let (bytes, bs) ← readN sz bs
      let (vs, bs) ← readRowVals setBytes sizes prevs (u + 1) bs
      pure (leVal bytes :: vs, bs)
    else
      (readRowVals setBytes sizes prevs (u + 1) bs).map (fun p => (pv :: p.1, p.2))

/-- Join fields with tabs and terminate with a newline (the
`writeSeparator`/`writeEndline` calls of `readNextRow` for a plain
all-columns output). -/
def joinRow (fields : List (List Nat)) : List Nat :=
  match fields with
  | [] => [10]
  | f :: fs => f ++ (fs.flatMap (fun g => 9 :: g)) ++ [10]

/-- Per-column outputs of one row. -/
def rowFieldOutputs (version : Nat) (oldDecimal : Nat → List Nat) (types : List ColType)
    (hdr : BlockHeader) (vals : List Nat) : Except ERR (List (List Nat)) :=
  match types, vals with
  | [], _ => .ok []
  | _ :: _, [] => .ok []
  | t :: ts, v :: vs =>
    match hdr.columnSize, hdr.columnBase with
    | _, _ => do
      let rest ← rowFieldOutputs version oldDecimal ts
        { hdr with columnSize := hdr.columnSize.tail, columnBase := hdr.columnBase.tail } vs
      if hdr.columnSize.headD 0 = 0 then
        pure (outputDefault t :: rest)
      else
        let f ← decodeFieldOutput version oldDecimal t hdr.dictSize hdr.dictBuf
          (hdr.columnBase.headD 0) v
        pure (f :: rest)

/-- `readNextRow` (all columns selected for output): read the sameness
bitmap, update the per-column values, and emit each column by type,
tab-separated and newline-terminated. -/
def readNextRowD (version : Nat) (oldDecimal : Nat → List Nat) (types : List ColType)
    (hdr : BlockHeader) (numSetColumns : Nat) (prevVals : List Nat) (bs : List Nat) :
    Except ERR (List Nat × List Nat × List Nat) := do
  let (setBytes, bs) ← readN numSetColumns bs
  let (vals, bs) ← readRowVals setBytes hdr.columnSize prevVals 0 bs
  let fields ← rowFieldOutputs version oldDecimal types hdr vals
  pure (joinRow fields, vals, bs)

/-- The row loop of `parseNextBlock`. -/
def decodeBlockRows (version : Nat) (oldDecimal : Nat → List Nat) (types : List ColType)
    (hdr : BlockHeader) (numSetColumns : Nat) :
    Nat → List Nat → List Nat → Except ERR (List Nat × List Nat)
  | 0, _, bs => .ok ([], bs)
  | n + 1, prevVals, bs => do
    let (out, vals, bs) ← readNextRowD version oldDecimal types hdr numSetColumns prevVals bs
    let (outs, bs) ← decodeBlockRows version oldDecimal types hdr numSetColumns n vals bs
    pure (out ++ outs, bs)

/-- `ceil(numColumnsUsedFromExportFile / 8)`
(`readColumnFieldStats`). -/
def numSetColumnsOf (columnSize : List Nat) : Nat :=
  ((columnSize.filter (fun sz => sz ≠ 0)).length + 7) / 8

/-- Decode one block: parse the block header, then its rows (previous
values start at zero: `memset(this->columnVal, 0, ...)`). -/
def decodeBlock (version : Nat) (oldDecimal : Nat → List Nat) (types : List ColType)
    (numColumnsInExportFile : Nat) (bs : List Nat) :
    Except ERR (List Nat × Nat × List Nat) := do
  let (hdr, bs) ← parseBlockHeaderD numColumnsInExportFile bs
  let (out, bs) ← decodeBlockRows version oldDecimal types hdr
    (numSetColumnsOf hdr.columnSize) hdr.numLines
    (List.replicate numColumnsInExportFile 0) bs
  pure (out, hdr.lastBlock, bs)

/-- Map a raw type byte back to `ColType`. -/
def colTypeOfCode (n : Nat) : ColType :=
  match n with
  | 0 => .varchar
  | 1 => .text
  | 2 => .datetime
  | 3 => .char2
  | 4 => .visidLow
  | 5 => .visidHigh
  | 6 => .char1
  | 7 => .tiny
  | 8 => .short
  | 9 => .long
  | 10 => .longlong
  | 11 => .decimal
  | 12 => .tinySigned
  | 13 => .shortSigned
  | 14 => .longSigned
  | 15 => .longlongSigned
  | 16 => .tinytext
  | 17 => .mediumtext
  | 18 => .longtext
  | _ => .varchar

/-- The block loop of `unconvert`, with fuel (each block consumes at
least one byte, so the input length bounds the number of blocks). -/
def decodeBlocksLoop (version : Nat) (oldDecimal : Nat → List Nat) (types : List ColType)
    (numColumnsInExportFile : Nat) :
    Nat → List Nat → Except ERR (List Nat × List Nat)
  | 0, _ => .error .ROW_COUNT_ERR
  | fuel + 1, bs => do
    let (out, lastBlock, bs) ← decodeBlock version oldDecimal types numColumnsInExportFile bs
    if lastBlock ≠ 0 then pure (out, bs)
    else do
      let (outs, bs) ← decodeBlocksLoop version oldDecimal types numColumnsInExportFile fuel bs
      pure (out ++ outs, bs)

/-- `UnconvertFromZDWToFile::unconvert` with all columns selected: read
the header, decode blocks until the terminal one, then demand end of
input (`ZDW_LONGER_THAN_EXPECTED_ERR` if bytes remain). -/
def decodeFile (oldDecimal : Nat → List Nat) (bs : List Nat) : Except ERR (List Nat) := do
  let (hdr, bs) ← readHeader bs
  let (out, bs) ← decodeBlocksLoop hdr.version oldDecimal
    (hdr.columnTypes.map colTypeOfCode) hdr.columnNames.length (bs.length + 1) bs
  if bs.isEmpty then pure out else throw .ZDW_LONGER_THAN_EXPECTED_ERR

end ZDW.Dec

namespace ZDW.Proj

open ZDW.Dec (ERR)

/-! ## Output shaper: column projection (`UnconvertFromZDW_Base::readHeader`
steps 3c, `setNamesOfColumnsToOutput`, and `BufferedOrderedOutput`) -/

/-- ASCII lower-casing, as `strcasecmp` compares. -/
def lowerChar (c : Char) : Char :=
  if 'A' ≤ c ∧ c ≤ 'Z' then Char.ofNat (c.toNat + 32) else c

def lowerStr (s : String) : String := String.mk (s.data.map lowerChar)

/-- Case-insensitive name equality. -/
def ciEq (a b : String) : Bool := lowerStr a == lowerStr b

def ciLookup (m : List (String × Nat)) (name : String) : Option Nat :=
  (m.find? (fun kv => ciEq kv.1 name)).map (fun kv => kv.2)

def ciErase (m : List (String × Nat)) (name : String) : List (String × Nat) :=
  m.filter (fun kv => ! ciEq kv.1 name)

/-- `COLUMN_INCLUSION_RULE`. -/
inductive InclusionRule
  | failOnInvalid
  | skipInvalid
  | excludeSpecified
  | provideEmptyMissing
  deriving DecidableEq, Repr

/-- `setNamesOfColumnsToOutput` (vector form): assign each requested
column name its output position in request order.  The claims exercise
duplicate-free request lists; a duplicate fails in strict mode and lands
in the blank-column map in pad mode. -/
def buildRequested (mode : InclusionRule) (requested : List String) :
    Except ERR (List (String × Nat) × List (Nat × String)) :=
  let step := fun (acc : Except ERR (List (String × Nat) × List (Nat × String)))
      (name : String) =>
    match acc with
    | .error e => .error e
    | .ok (m, blanks) =>
      if (m.find? (fun kv => kv.1 == name)).isSome then
        match mode with
        | .failOnInvalid => .error .BAD_REQUESTED_COLUMN
        | .provideEmptyMissing => .ok (m, blanks ++ [(m.length + blanks.length, name)])
        | _ => .ok (m, blanks)
      else .ok (m ++ [(name, m.length + blanks.length)], blanks)
  requested.foldl step (.ok ([], []))

structure ScanState where
  outputColumns : List Int
  encountered : List (Nat × Nat)
  copy : List (String × Nat)
  outIndex : Nat

/-- The per-file-column scan of `readHeader`: inclusion modes mark a
matched column with its requested output position and erase it from the
working copy; exclude mode numbers the non-excluded columns in file
order. -/
def scanStep (exclude : Bool) (st : ScanState) (idx : Nat) (name : String) : ScanState :=
  if exclude then
    match ciLookup st.copy name with
    | none =>
      ⟨st.outputColumns ++ [Int.ofNat st.outIndex], st.encountered, st.copy, st.outIndex + 1⟩
    | some _ => ⟨st.outputColumns ++ [-1], st.encountered, st.copy, st.outIndex⟩
  else
    match ciLookup st.copy name with
    | some pos =>
      ⟨st.outputColumns ++ [Int.ofNat pos], st.encountered ++ [(pos, idx)],
        ciErase st.copy name, st.outIndex⟩
    | none => ⟨st.outputColumns ++ [-1], st.encountered, st.copy, st.outIndex⟩

def scanColumns (exclude : Bool) (copy : List (String × Nat)) (fileCols : List String) :
    ScanState :=
  (fileCols.enum.foldl (fun st p => scanStep exclude st p.1 p.2)
    ⟨[], [], copy, 0⟩)

/-- The compaction pass: walk the encountered output positions in
ascending order and renumber them consecutively. -/
def compact (outputColumns : List Int) (encountered : List (Nat × Nat)) : List Int :=
  let sorted := (encountered.mergeSort (fun a b => a.1 ≤ b.1))
  (sorted.enum.foldl (fun (oc : List Int) p =>
    if p.2.1 ≠ p.1 then oc.set p.2.2 (Int.ofNat p.1) else oc) outputColumns)

/-- `readHeader` steps 3c and the leftover handling: returns the
per-file-column output positions (`IGNORE = -1`) and the blank
(pad-mode) columns. -/
def computeProjection (mode : InclusionRule) (requested : List String)
    (fileCols : List String) : Except ERR (List Int × List (Nat × String)) := do
  let (m, blanks0) ← buildRequested mode requested
  let st := scanColumns (mode = .excludeSpecified) m fileCols
  if mode = .excludeSpecified then
    pure (st.outputColumns, blanks0)
  else if st.copy.isEmpty then
    pure (st.outputColumns, blanks0)
  else
    match mode with
    | .failOnInvalid => throw .BAD_REQUESTED_COLUMN
    | .provideEmptyMissing =>
      pure (st.outputColumns, blanks0 ++ st.copy.map (fun kv => (kv.2, kv.1)))
    | _ =>
      if st.encountered.isEmpty then throw .NO_COLUMNS_TO_OUTPUT
      else pure (compact st.outputColumns st.encountered, blanks0)

/-- `BufferedOrderedOutput::setOutputColumnOrder`: keep the non-`-1`
entries; accept the ordering iff the largest value is one less than
their count. -/
def outputIndexOf (allCols : List Int) : List Nat :=
  allCols.filterMap (fun v => if 0 ≤ v then some v.toNat else none)

def maxVal (l : List Nat) : Int :=
  l.foldl (fun m v => max m (Int.ofNat v)) (-1)

/-- `BufferedOrderedOutput::writeEndline`: column buffers joined by
single tabs, then the newline. -/
def joinSlots (slots : List String) : String :=
  String.intercalate "\t" slots ++ "\n"

/-- One decoded row pushed through the ordered output: `readNextRow`
calls `write` once per non-ignored file column in file order; each lands
in the slot given by the next `outputIndex` entry; blank pad columns are
never written and keep their empty buffers. -/
def orderedOutputRow (mode : InclusionRule) (requested : List String)
    (fileCols : List String) (values : List String) : Except ERR String := do
  let (outputColumns, blanks) ← computeProjection mode requested fileCols
  let allCols := outputColumns ++ blanks.map (fun b => Int.ofNat b.1)
  let outputIndex := outputIndexOf allCols
  if maxVal outputIndex + 1 = Int.ofNat outputIndex.length then
    let written := (values.zip outputColumns).filterMap
      (fun p => if p.2 ≠ -1 then some p.1 else none)
    let slots := (written.zip outputIndex).foldl
      (fun (sl : List String) p => sl.set p.2 p.1)
      (List.replicate outputIndex.length "")
    pure (joinSlots slots)
  else throw .BAD_REQUESTED_COLUMN

end ZDW.Proj

namespace ZDW.Enc

/-! ### Helper lemmas for the claim theorems -/

theorem getD_map_lt (l : List Nat) (f : Nat → Bool × Nat × Nat) (u : Nat) (hu : u < l.length) :
    (l.map f).getD u (false, 0, 0) = f (l.getD u 0) := by
  induction l generalizing u with
  | nil => simp at hu
  | cons a as ih =>
    cases u with
    | zero => rfl
    | succ u =>
      simp only [List.map_cons, List.getD_cons_succ]
      exact ih u (by simpa using hu)

theorem specRows_getD (used : List Nat) (size : Nat → Nat)
    (storedOf : List (List Nat) → Nat → Nat) (rows : List (List (List Nat))) :
    ∀ (prev : Nat → Nat) (i : Nat), i < rows.length →
      (specRows used size storedOf prev rows).getD i []
        = packRow (used.map (fun c =>
            (decide (storedOf (rows.getD i []) c
              ≠ (if i = 0 then prev else storedOf (rows.getD (i - 1) [])) c),
             storedOf (rows.getD i []) c, size c))) := by
  induction rows with
  | nil => intro prev i hi; simp at hi
  | cons row rows ih =>
    intro prev i hi
    cases i with
    | zero => simp [specRows]
    | succ i =>
      simp only [specRows, List.getD_cons_succ]
      rw [ih (storedOf row) i (by simpa using hi)]
      cases i with
      | zero => simp
      | succ j => simp

/-- One `updateMinMax` step preserves the invariant that a set min/max
pair has `1 ≤ min ≤ max`. -/
theorem updateMinMax_inv (cs : ColStats) (v : Nat)
    (h : cs.minmaxset = true → 1 ≤ cs.min ∧ cs.min ≤ cs.max) :
    (updateMinMax cs v).minmaxset = true →
      1 ≤ (updateMinMax cs v).min ∧ (updateMinMax cs v).min ≤ (updateMinMax cs v).max := by
  unfold updateMinMax
  by_cases hv : v > 0
  · rw [if_pos hv]
    by_cases hms : cs.minmaxset
    · rw [if_pos hms]
      have hcs := h (by simpa using hms)
      by_cases h1 : v > cs.max
      · rw [if_pos h1]; intro _; simp; omega
      · rw [if_neg h1]
        by_cases h2 : v < cs.min
        · rw [if_pos h2]; intro _; simp; omega
        · rw [if_neg h2]; intro _; exact hcs
    · rw [if_neg hms]; intro _; simp; omega
  · rw [if_neg hv]; exact h

/-- Once set, `updateMinMax` keeps the flag set and never increases `min`. -/
theorem updateMinMax_set_mono (cs : ColStats) (v : Nat) (hset : cs.minmaxset = true) :
    (updateMinMax cs v).minmaxset = true ∧ (updateMinMax cs v).min ≤ cs.min := by
  unfold updateMinMax
  by_cases hv : v > 0
  · rw [if_pos hv, if_pos (by simpa using hset)]
    by_cases h1 : v > cs.max
    · rw [if_pos h1]; exact ⟨hset, Nat.le_refl _⟩
    · rw [if_neg h1]
      by_cases h2 : v < cs.min
      · rw [if_pos h2]; exact ⟨hset, by simp; omega⟩
      · rw [if_neg h2]; exact ⟨hset, Nat.le_refl _⟩
  · rw [if_neg hv]; exact ⟨hset, Nat.le_refl _⟩

/-- Updating with a non-zero value sets the flag and leaves `min ≤ v`. -/
theorem updateMinMax_le_self (cs : ColStats) (v : Nat)
    (h : cs.minmaxset = true → 1 ≤ cs.min ∧ cs.min ≤ cs.max) (hv : v ≠ 0) :
    (updateMinMax cs v).minmaxset = true ∧ (updateMinMax cs v).min ≤ v := by
  unfold updateMinMax
  rw [if_pos (by omega : v > 0)]
  by_cases hms : cs.minmaxset
  · rw [if_pos hms]
    have hcs := h (by simpa using hms)
    by_cases h1 : v > cs.max
    · rw [if_pos h1]; exact ⟨hms, by simp; omega⟩
    · rw [if_neg h1]
      by_cases h2 : v < cs.min
      · rw [if_pos h2]; exact ⟨hms, by simp⟩
      · rw [if_neg h2]; exact ⟨hms, by omega⟩
  · rw [if_neg hms]; exact ⟨rfl, Nat.le_refl _⟩

/-- Folding `updateMinMax` over a list keeps the flag set and never
increases `min`. -/
theorem foldl_updateMinMax_mono (vs : List Nat) :
    ∀ cs : ColStats, cs.minmaxset = true →
      (vs.foldl updateMinMax cs).minmaxset = true
      ∧ (vs.foldl updateMinMax cs).min ≤ cs.min := by
  induction vs with
  | nil => intro cs hset; exact ⟨hset, Nat.le_refl _⟩
  | cons v vs ih =>
    intro cs hset
    obtain ⟨h1, h2⟩ := updateMinMax_set_mono cs v hset
    obtain ⟨h3, h4⟩ := ih (updateMinMax cs v) h1
    exact ⟨h3, Nat.le_trans h4 h2⟩

/-- The per-column minimum tracked by repeated `updateMinMax` calls is at
least 1 and bounds every non-zero tracked value from below. -/
theorem foldl_updateMinMax_min (vs : List Nat) :
    ∀ cs : ColStats, (cs.minmaxset = true → 1 ≤ cs.min ∧ cs.min ≤ cs.max) →
      ((vs.foldl updateMinMax cs).minmaxset = true →
        1 ≤ (vs.foldl updateMinMax cs).min)
      ∧ (∀ v ∈ vs, v ≠ 0 → (vs.foldl updateMinMax cs).minmaxset = true
          ∧ (vs.foldl updateMinMax cs).min ≤ v) := by
  induction vs with
  | nil =>
    intro cs hinit
    refine ⟨fun hs => (hinit hs).1, ?_⟩
    intro v hv
    simp at hv
  | cons v vs ih =>
    intro cs hinit
    obtain ⟨ha, hc⟩ := ih (updateMinMax cs v) (updateMinMax_inv cs v hinit)
    refine ⟨ha, ?_⟩
    intro w hw hw0
    rcases List.mem_cons.mp hw with rfl | hw2
    · obtain ⟨hset, hle⟩ := updateMinMax_le_self cs w hinit hw0
      obtain ⟨hset2, hle2⟩ := foldl_updateMinMax_mono vs (updateMinMax cs w) hset
      exact ⟨hset2, Nat.le_trans hle2 hle⟩
    · exact hc w hw2 hw0

end ZDW.Enc

namespace ZDW

open Dict Tok Enc Dec Proj

/-! ## The claims -/

/-- Any byte stream whose 2-byte version field exceeds
`UNCONVERT_ZDW_VERSION` is rejected at the version gate. -/
theorem readHeader_unsupported (bs : List Nat) (h2 : 2 ≤ bs.length)
    (hv : leVal (bs.take 2) > UNCONVERT_ZDW_VERSION) :
    readHeader bs = .error .UNSUPPORTED_ZDW_VERSION_ERR := by
  unfold readHeader
  have h1 : readLE 2 bs = .ok (leVal (bs.take 2), bs.drop 2) := by
    unfold readLE readN
    rw [if_pos h2]
    rfl
  simp only [h1, bind, Except.bind]
  rw [if_pos hv]
  rfl

/-- A file starting with the version bytes `11, 0` fails to decode. -/
theorem decodeFile_v11 (old : Nat → List Nat) (rest : List Nat) :
    decodeFile old (11 :: 0 :: rest) = .error .UNSUPPORTED_ZDW_VERSION_ERR := by
  unfold decodeFile
  have h : readHeader (11 :: 0 :: rest) = .error .UNSUPPORTED_ZDW_VERSION_ERR :=
    readHeader_unsupported _ (by simp)
      (show leVal [11, 0] > UNCONVERT_ZDW_VERSION by decide)
  simp only [h, bind, Except.bind]

/-- Every encoder output starts with the version bytes `11, 0`
(`CONVERT_ZDW_CURRENT_VERSION` in little-endian). -/
theorem encodeFileNoLimit_starts (names : List (List Nat)) (types : List ColType)
    (charSizes : List Nat) (md : List (List Nat × List Nat))
    (rows : List (List (List Nat))) (lineLen : Nat) :
    ∃ rest : List Nat,
      encodeFileNoLimit names types charSizes md rows lineLen = 11 :: 0 :: rest :=
  ⟨_, rfl⟩

/-- Claim C1: the round trip `decode(encode(I)) = I` fails for every
input in this source snapshot — the encoder stamps its files with
version 11 (`CONVERT_ZDW_CURRENT_VERSION`) while the decoder supports
only up to version 10 (`UNCONVERT_ZDW_VERSION`), so decoding any encoder
output stops at the version gate with `UNSUPPORTED_ZDW_VERSION_ERR`;
shown here on the schema `[c: varchar(8)]` with rows `hi`, `hi`,
`world`. -/
theorem claim_C1 :
    decodeFile (fun _ => [])
      (encodeFileNoLimit [[99]] [ColType.varchar] [8] []
        [[[104, 105]], [[104, 105]], [[119, 111, 114, 108, 100]]] 16384)
      = .error .UNSUPPORTED_ZDW_VERSION_ERR := by
  obtain ⟨rest, hr⟩ := encodeFileNoLimit_starts [[99]] [ColType.varchar] [8] []
    [[[104, 105]], [[104, 105]], [[119, 111, 114, 108, 100]]] 16384
  rw [hr]
  exact decodeFile_v11 _ rest

/-- Claim C4, counterexample: the claim says the decoder handles file
versions 1 through 11, but the decoder rejects the encoder's own current
version bytes (version 11) as unsupported. -/
theorem claim_C4_counterexample :
    readHeader (leBytes 2 CONVERT_ZDW_CURRENT_VERSION)
      = .error .UNSUPPORTED_ZDW_VERSION_ERR := rfl

/-- Claim C4 (amended): the decoder's supported version is
`UNCONVERT_ZDW_VERSION = 10`, and `readHeader` returns
`UNSUPPORTED_ZDW_VERSION_ERR` exactly when the file's 2-byte
little-endian version field is present and greater than 10. -/
theorem claim_C4 (bs : List Nat) :
    readHeader bs = .error .UNSUPPORTED_ZDW_VERSION_ERR
      ↔ 2 ≤ bs.length ∧ leVal (bs.take 2) > UNCONVERT_ZDW_VERSION := by
  constructor
  · intro h
    rcases readHeader_err bs _ h with h1 | ⟨_, h2, h3⟩
    · cases h1
    · exact ⟨h2, h3⟩
  · intro h
    exact readHeader_unsupported bs h.1 h.2

/-- Claim C4, witness: a concrete stream with version field 11 is
rejected, and one with version field 10 is not rejected by the gate. -/
theorem claim_C4_witness :
    readHeader [11, 0, 99] = .error .UNSUPPORTED_ZDW_VERSION_ERR
    ∧ ¬ (readHeader [10, 0] = .error .UNSUPPORTED_ZDW_VERSION_ERR) :=
  ⟨(claim_C4 [11, 0, 99]).mpr ⟨by decide, by decide⟩,
   fun h => by
    have := (claim_C4 [10, 0]).mp h
    revert this
    decide⟩

/-- Claim C9: with schema columns `a,b,c` and the decoded row
`1⟨tab⟩2⟨tab⟩3`, requesting `c,a` outputs `3⟨tab⟩1` and a newline;
requesting `c,x` in strict mode fails with `BAD_REQUESTED_COLUMN`; and
requesting `c,x` in pad mode outputs `3⟨tab⟩` and a newline with the
missing column as an empty field. -/
theorem claim_C9 :
    orderedOutputRow .failOnInvalid ["c", "a"] ["a", "b", "c"] ["1", "2", "3"]
      = .ok "3\t1\n"
    ∧ orderedOutputRow .failOnInvalid ["c", "x"] ["a", "b", "c"] ["1", "2", "3"]
      = .error .BAD_REQUESTED_COLUMN
    ∧ orderedOutputRow .provideEmptyMissing ["c", "x"] ["a", "b", "c"] ["1", "2", "3"]
      = .ok "3\t\n" := by
  refine ⟨rfl, rfl, rfl⟩

/-- Claim C3: the block dictionary lists its distinct strings in
strictly ascending `strcmp` order; its buffer is the origin null byte
followed by the entries, null-terminated and densely packed; each
string's assigned offset is the 1-based byte position of its encoding,
so every emitted offset is at least 1, at most `dict_size - 1`, and
points at the start of a null-terminated copy of the string. -/
theorem claim_C3 (ss : List (List Nat)) (s : List Nat) (hs : s ∈ buildDict ss) :
    (buildDict ss).Pairwise (fun a b => cstrLt a b = true)
    ∧ (∀ a, a ∈ buildDict ss ↔ a ∈ ss)
    ∧ 1 ≤ dictOffset (buildDict ss) s
    ∧ dictOffset (buildDict ss) s ≤ dictGetSize (buildDict ss) - 1
    ∧ ((dictBuffer (buildDict ss)).drop (dictOffset (buildDict ss) s)).take (s.length + 1)
        = s ++ [0] := by
  obtain ⟨h1, h2, h3⟩ := dictOffset_spec (buildDict ss) s hs
  exact ⟨buildDict_sorted ss, fun a => mem_buildDict ss a, h1, by omega, h3⟩

/-- Claim C3, witness: the dictionary built from `hi` and `world`. -/
theorem claim_C3_witness :
    1 ≤ dictOffset (buildDict [[104, 105], [119, 111, 114, 108, 100]]) [104, 105]
    ∧ ((dictBuffer (buildDict [[104, 105], [119, 111, 114, 108, 100]])).drop
        (dictOffset (buildDict [[104, 105], [119, 111, 114, 108, 100]]) [104, 105])).take
          ([104, 105].length + 1)
        = [104, 105] ++ [0] :=
  ⟨(claim_C3 [[104, 105], [119, 111, 114, 108, 100]] [104, 105] (by decide)).2.2.1,
   (claim_C3 [[104, 105], [119, 111, 114, 108, 100]] [104, 105] (by decide)).2.2.2.2⟩

/-- Claim C7, counterexample: the claim says a stored value of `0` emits
the empty field for every type in its list, which includes `DECIMAL`
(version ≥ 4); but a `DECIMAL` column with stored value `0` emits the
default text `0.000000000000`, not the empty field. -/
theorem claim_C7_counterexample :
    decodeFieldOutput 11 (fun _ => []) .decimal 10 [0, 104, 105, 0] 0 0
      = .ok [48, 46, 48, 48, 48, 48, 48, 48, 48, 48, 48, 48, 48, 48]
    ∧ ([48, 46, 48, 48, 48, 48, 48, 48, 48, 48, 48, 48, 48, 48] : List Nat) ≠ [] :=
  ⟨rfl, by decide⟩

/-- Claim C7 (amended): for the string-like types and for `DECIMAL` at
version ≥ 4, a non-zero stored value indexes the dictionary at
`value + base`, failing with `CORRUPTED_DATA_ERROR` exactly when the
index exceeds the dictionary size and otherwise emitting the entry
there; a stored value of `0` emits the type's default output — empty for
the string-like types, `0.000000000000` for `DECIMAL`. -/
theorem claim_C7 (version : Nat) (oldDec : Nat → List Nat) (t : ColType)
    (dictSize : Nat) (dictBuf : List Nat) (base valN : Nat)
    (hv : 4 ≤ version) (ht : t.isStringLike = true ∨ t = .decimal) :
    (valN ≠ 0 →
      decodeFieldOutput version oldDec t dictSize dictBuf base valN
        = (if valN + base > dictSize then .error .CORRUPTED_DATA_ERROR
           else .ok (GetWord dictBuf (valN + base))))
    ∧ (valN = 0 →
      decodeFieldOutput version oldDec t dictSize dictBuf base valN
        = .ok (outputDefault t))
    ∧ (t.isStringLike = true → outputDefault t = [])
    ∧ (t = .decimal → outputDefault t = [48, 46] ++ List.replicate 12 48) := by
  rcases ht with ht | rfl
  · refine ⟨?_, ?_, ?_, ?_⟩
    · intro h0
      simp only [decodeFieldOutput, ht, if_true, if_pos h0]
    · intro h0
      simp only [decodeFieldOutput, ht, if_true, h0]
      simp
    · intro _
      cases t <;> first | rfl | (exfalso; simp [ColType.isStringLike] at ht)
    · intro hdec
      subst hdec
      simp [ColType.isStringLike] at ht
  · refine ⟨?_, ?_, ?_, ?_⟩
    · intro h0
      simp only [decodeFieldOutput]
      norm_num [ColType.isStringLike, ColType.isNumeric]
      rw [if_neg (show ¬ (ColType.decimal = ColType.char1) by decide), if_neg h0,
        if_pos hv]
    · intro h0
      simp only [decodeFieldOutput, h0]
      norm_num [ColType.isStringLike, ColType.isNumeric]
      intro h
      exact absurd h (by decide)
    · intro hsl
      simp [ColType.isStringLike] at hsl
    · intro _
      rfl

/-- Claim C7, witness: a `VARCHAR` column at version 9 with stored value
1 and base 0 reads the dictionary word at offset 1. -/
theorem claim_C7_witness :
    decodeFieldOutput 9 (fun _ => []) .varchar 10
        [0, 104, 105, 0, 119, 111, 114, 108, 100, 0] 0 1
      = (if 1 + 0 > 10 then .error .CORRUPTED_DATA_ERROR
         else .ok (GetWord [0, 104, 105, 0, 119, 111, 114, 108, 100, 0] (1 + 0))) :=
  (claim_C7 9 (fun _ => []) .varchar 10 [0, 104, 105, 0, 119, 111, 114, 108, 100, 0]
    0 1 (by decide) (Or.inl (by decide))).1 (by decide)

/-- Claim C6: the row tokenizer splits a line at every tab except one
preceded by an odd number of consecutive backslashes, which stays inside
its field (the source scanner equals the spec's odd-run scan on every
input, so it never rejects); a physical line whose trailing backslash
run is odd is continued by appending further physical lines until the
run is even; and reaching end of input with the continuation still
pending yields the empty-row result (`none`). -/
theorem claim_C6 :
    (∀ r : List Nat, splitRowSrc r = splitRowSpec r)
    ∧ (∀ (l : List Nat) (ls : List (List Nat)) (lend rest : List Nat),
        IsLine l → 2 ≤ l.length → trailingRun l.dropLast % 2 = 1 →
        (∀ x ∈ ls, IsLine x ∧ trailingRun x.dropLast % 2 = 1) →
        IsLine lend → trailingRun lend.dropLast % 2 = 0 →
        getNextRow (l ++ (ls.flatten ++ (lend ++ rest)))
          = some ((l ++ ls.flatten ++ lend).dropLast, rest))
    ∧ (∀ (l : List Nat) (ls : List (List Nat)),
        IsLine l → 2 ≤ l.length → trailingRun l.dropLast % 2 = 1 →
        (∀ x ∈ ls, IsLine x ∧ trailingRun x.dropLast % 2 = 1) →
        getNextRow (l ++ ls.flatten) = none) := by
  refine ⟨splitRowSrc_eq_spec, ?_, ?_⟩
  · intro l ls lend rest hl hlen hodd hcont hlend heven
    cases l with
    | nil => exact absurd rfl (IsLine.ne_nil [] hl)
    | cons b lt =>
      have hread := readLine_line (b :: lt) (ls.flatten ++ (lend ++ rest)) hl
      rw [List.cons_append] at hread
      rw [List.cons_append, getNextRow_cons b _ (by rw [hread]; simp at hlen ⊢; omega)]
      rw [hread]
      exact glueLines_concat ls (b :: lt) lend rest hl.1 hodd hcont hlend heven
  · intro l ls hl hlen hodd hcont
    cases l with
    | nil => exact absurd rfl (IsLine.ne_nil [] hl)
    | cons b lt =>
      have hread := readLine_line (b :: lt) ls.flatten hl
      rw [List.cons_append] at hread
      rw [List.cons_append, getNextRow_cons b _ (by rw [hread]; simp at hlen ⊢; omega)]
      rw [hread]
      exact glueLines_eof ls (b :: lt) hl.1 hodd hcont

/-- Claim C6, witness: the field `a\⟨tab⟩b` stays whole under the spec
scan; the line `a\⟨newline⟩` glues the continuation `b\⟨newline⟩` and
ends at `c⟨newline⟩`; and the same input without the even-run line ends
as the empty row. -/
theorem claim_C6_witness :
    splitRowSrc [97, 92, 9, 98, 9, 99] = splitRowSpec [97, 92, 9, 98, 9, 99]
    ∧ getNextRow ([97, 92, 10] ++ ([[98, 92, 10]].flatten ++ ([99, 10] ++ [100])))
        = some (([97, 92, 10] ++ [[98, 92, 10]].flatten ++ [99, 10]).dropLast, [100])
    ∧ getNextRow ([97, 92, 10] ++ ([[98, 92, 10]] : List (List Nat)).flatten) = none :=
  ⟨claim_C6.1 [97, 92, 9, 98, 9, 99],
   claim_C6.2.1 [97, 92, 10] [[98, 92, 10]] [99, 10] [100]
     ⟨by decide, by decide⟩ (by decide) (by decide)
     (by
       intro x hx
       rw [List.mem_singleton] at hx
       subst hx
       exact ⟨⟨by decide, by decide⟩, by decide⟩)
     ⟨by decide, by decide⟩ (by decide),
   claim_C6.2.2 [97, 92, 10] [[98, 92, 10]]
     ⟨by decide, by decide⟩ (by decide) (by decide)
     (by
       intro x hx
       rw [List.mem_singleton] at hx
       subst hx
       exact ⟨⟨by decide, by decide⟩, by decide⟩)⟩

/-- Claim C2: the encoded row stream equals packing each row against the
previous row's stored values with the previous-row vector all zeros at
block start; in row `i`'s packed bytes, the bit at position `u` (byte
`u / 8`, bit `u % 8`, counting only used columns) is set iff column
`used[u]`'s stored value differs from the previous row's; and the bytes
after the bitmap are exactly the set columns' `size_bytes` little-endian
stored values, in column order. -/
theorem claim_C2 (used : List Nat) (size : Nat → Nat)
    (storedOf : List (List Nat) → Nat → Nat) (rows : List (List (List Nat)))
    (i u : Nat) (cur prevOf : Nat → Nat) (cells : List (Bool × Nat × Nat))
    (hi : i < rows.length) (hu : u < used.length)
    (hcur : cur = storedOf (rows.getD i []))
    (hprev : prevOf = if i = 0 then (fun _ : Nat => 0)
      else storedOf (rows.getD (i - 1) []))
    (hcells : cells = used.map (fun c => (decide (cur c ≠ prevOf c), cur c, size c))) :
    writeBlockRows used size storedOf rows
      = specRows used size storedOf (fun _ => 0) rows
    ∧ (writeBlockRows used size storedOf rows).getD i [] = packRow cells
    ∧ ((packRow cells).getD (u / 8) 0).testBit (u % 8)
        = decide (cur (used.getD u 0) ≠ prevOf (used.getD u 0))
    ∧ (packRow cells).drop ((used.length + 7) / 8)
        = (cells.filter (fun cell => cell.1)).flatMap
            (fun cell => leBytes cell.2.2 cell.2.1) := by
  subst hcur
  subst hprev
  subst hcells
  have hA : writeBlockRows used size storedOf rows
      = specRows used size storedOf (fun _ => 0) rows := by
    unfold writeBlockRows
    exact writeBlockRowsGo_eq_specRows used size storedOf rows
      (fun _ => 0) (fun _ => 0) (fun _ => 0) true (fun c _ => rfl)
  have hcl : (used.map (fun c =>
      (decide (storedOf (rows.getD i []) c
        ≠ (if i = 0 then (fun _ : Nat => 0) else storedOf (rows.getD (i - 1) [])) c),
       storedOf (rows.getD i []) c, size c))).length = used.length := by
    rw [List.length_map]
  refine ⟨hA, ?_, ?_, ?_⟩
  · rw [hA, specRows_getD used size storedOf rows (fun _ => 0) i hi]
  · have hb := packRow_bit (used.map (fun c =>
      (decide (storedOf (rows.getD i []) c
        ≠ (if i = 0 then (fun _ : Nat => 0) else storedOf (rows.getD (i - 1) [])) c),
       storedOf (rows.getD i []) c, size c))) u (by omega)
    rw [getD_map_lt used _ u hu] at hb
    exact hb
  · have hp := packRow_payload (used.map (fun c =>
      (decide (storedOf (rows.getD i []) c
        ≠ (if i = 0 then (fun _ : Nat => 0) else storedOf (rows.getD (i - 1) [])) c),
       storedOf (rows.getD i []) c, size c)))
    rwa [hcl] at hp

/-- Claim C2, witness: two one-column rows with stored value 53 in both
(no change in the second row, so its bit is clear and it contributes no
payload bytes). -/
theorem claim_C2_witness :
    writeBlockRows [0] (fun _ => 1) (fun row c => (row.getD c []).headD 0)
        [[[53]], [[53]]]
      = specRows [0] (fun _ => 1) (fun row c => (row.getD c []).headD 0)
          (fun _ => 0) [[[53]], [[53]]]
    ∧ (writeBlockRows [0] (fun _ => 1) (fun row c => (row.getD c []).headD 0)
        [[[53]], [[53]]]).getD 1 []
      = packRow [(false, 53, 1)]
    ∧ ((packRow [(false, 53, 1)]).getD (0 / 8) 0).testBit (0 % 8)
        = decide ((53 : Nat) ≠ 53)
    ∧ (packRow [(false, 53, 1)]).drop ((([0] : List Nat).length + 7) / 8)
      = (([(false, 53, 1)] : List (Bool × Nat × Nat)).filter
          (fun cell => cell.1)).flatMap (fun cell => leBytes cell.2.2 cell.2.1) :=
  claim_C2 [0] (fun _ => 1) (fun row c => (row.getD c []).headD 0) [[[53]], [[53]]]
    1 0
    (fun c => ((([[[53]], [[53]]] : List (List (List Nat))).getD 1 []).getD c []).headD 0)
    (fun c => ((([[[53]], [[53]]] : List (List (List Nat))).getD 0 []).getD c []).headD 0)
    [(false, 53, 1)]
    (by decide) (by decide) rfl rfl (by decide)

/-- Claim C8: when pass 1 stalls for memory after counting at least one
row, the block loop closes the block with `last_block = 0` and restarts
on the uncounted rows with a fresh dictionary (the recursive pass starts
from `DictState.empty` again); a stall with zero counted rows is the
only way the encoder reports `outOfMemory`. -/
theorem claim_C8 (memLow : Nat → Bool) (types : List ColType)
    (rows : List (List (List Nat))) :
    ((pass1 memLow types rows).2.2.2 = InStatus.notEnoughMemory →
      (pass1 memLow types rows).1 ≠ 0 →
      processFileLoop memLow types rows
        = Except.map (fun blocks => ((pass1 memLow types rows).1, false) :: blocks)
            (processFileLoop memLow types (rows.drop (pass1 memLow types rows).1)))
    ∧ ((pass1 memLow types rows).2.2.2 = InStatus.notEnoughMemory →
      (pass1 memLow types rows).1 = 0 →
      processFileLoop memLow types rows = .error .outOfMemory)
    ∧ ((∀ i : Nat, ¬ ((pass1 memLow types (rows.drop i)).2.2.2 = InStatus.notEnoughMemory
          ∧ (pass1 memLow types (rows.drop i)).1 = 0)) →
      processFileLoop memLow types rows ≠ .error .outOfMemory) :=
  ⟨processFileLoop_rotate memLow types rows,
   processFileLoop_oom memLow types rows,
   fun hno => processFileLoop_no_oom memLow types rows.length rows (Nat.le_refl _) hno⟩

/-- Claim C8, witness: with the memory probe always low, a single-row
input stalls before counting any row and the encoder reports
`outOfMemory`. -/
theorem claim_C8_witness :
    (pass1 (fun _ => true) [ColType.varchar] [[[104]]]).2.2.2 = InStatus.notEnoughMemory
    ∧ (pass1 (fun _ => true) [ColType.varchar] [[[104]]]).1 = 0
    ∧ processFileLoop (fun _ => true) [ColType.varchar] [[[104]]]
        = .error .outOfMemory :=
  ⟨by decide, by decide,
   (claim_C8 (fun _ => true) [ColType.varchar] [[[104]]]).2.1 (by decide) (by decide)⟩

/-- A numeric column type is none of the dictionary, string-like,
`CHAR(1)` or `DECIMAL` cases. -/
theorem numericFacts (t : ColType) (ht : t.isNumeric = true) :
    t.usesDict = false ∧ t.isStringLike = false ∧ t ≠ .char1 ∧ t ≠ .decimal := by
  cases t <;> simp_all [ColType.isNumeric, ColType.usesDict, ColType.isStringLike]

/-- On a numeric column the encoder stores `strtoull` of the field,
shifted by the base when non-zero. -/
theorem storedValOf_numeric (t : ColType) (ht : t.isNumeric = true)
    (dictOff : List Nat → Nat) (base : Nat) (f : List Nat) :
    storedValOf t dictOff base f
      = (if strtoull10 f > 0 then (strtoull10 f + W64 - base) % W64
         else strtoull10 f) := by
  cases t <;> first
    | rfl
    | simp [ColType.isNumeric] at ht

theorem llutoaBytes_zero : llutoaBytes 0 = [48] := by
  unfold llutoaBytes
  norm_num

theorem lltoaBytes_zero : lltoaBytes 0 = [48] := by
  unfold lltoaBytes
  rw [if_pos (by norm_num)]
  exact llutoaBytes_zero

/-- Claim C10: on a used numeric column the encoder stores `0` both for
an empty field and for the literal text `0`; the written base is one
less than the block minimum (`finalizeCol`), the tracked minimum is at
least 1 and bounds every non-zero tracked value, and a non-zero parsed
value above the base is stored shifted and never becomes 0; the decoder
renders a stored 0 as the single character `0` — so an empty numeric
field and a `0` field have identical encodings and both decode to
`0`. -/
theorem claim_C10 (t : ColType) (dictOff : List Nat → Nat) (ht : t.isNumeric = true) :
    (∀ base : Nat, storedValOf t dictOff base [] = 0
       ∧ storedValOf t dictOff base [48] = 0)
    ∧ (∀ (offsetSize : Nat) (cs : ColStats), cs.minmaxset = true →
        (finalizeCol t offsetSize cs).2 = cs.min - 1)
    ∧ (∀ vs : List Nat,
        (vs.foldl updateMinMax ColStats.initial).minmaxset = true →
          1 ≤ (vs.foldl updateMinMax ColStats.initial).min)
    ∧ (∀ (vs : List Nat) (v : Nat), v ∈ vs → v ≠ 0 →
        (vs.foldl updateMinMax ColStats.initial).minmaxset = true
        ∧ (vs.foldl updateMinMax ColStats.initial).min ≤ v)
    ∧ (∀ (base : Nat) (f : List Nat), strtoull10 f ≠ 0 → base < strtoull10 f →
        strtoull10 f < W64 →
        storedValOf t dictOff base f = strtoull10 f - base
        ∧ storedValOf t dictOff base f ≠ 0)
    ∧ (∀ (version : Nat) (oldDec : Nat → List Nat) (dictSize : Nat)
        (dictBuf : List Nat) (base : Nat),
        decodeFieldOutput version oldDec t dictSize dictBuf base 0 = .ok [48]) := by
  refine ⟨?_, ?_, ?_, ?_, ?_, ?_⟩
  · intro base
    rw [storedValOf_numeric t ht dictOff base [],
      storedValOf_numeric t ht dictOff base [48]]
    constructor
    · rw [show strtoull10 [] = 0 from rfl]
      norm_num
    · rw [show strtoull10 [48] = 0 from rfl]
      norm_num
  · intro offsetSize cs hcs
    unfold finalizeCol
    rw [hcs, (numericFacts t ht).1]
    rfl
  · intro vs hset
    exact (foldl_updateMinMax_min vs ColStats.initial (by intro h; cases h)).1 hset
  · intro vs v hv hv0
    exact (foldl_updateMinMax_min vs ColStats.initial
      (by intro h; cases h)).2 v hv hv0
  · intro base f h0 hlt hw
    rw [storedValOf_numeric t ht dictOff base f]
    rw [if_pos (by omega : strtoull10 f > 0)]
    have he : strtoull10 f + W64 - base = W64 + (strtoull10 f - base) := by omega
    rw [he, Nat.add_mod_left, Nat.mod_eq_of_lt (by omega)]
    exact ⟨rfl, by omega⟩
  · intro version oldDec dictSize dictBuf base
    cases t <;> first
      | (simp only [decodeFieldOutput, ColType.isStringLike, ColType.isNumeric,
          llutoaBytes_zero, lltoaBytes_zero]
         simp [llutoaBytes_zero, lltoaBytes_zero]
         done)
      | simp [ColType.isNumeric] at ht

/-- Claim C10, witness: the `TINY` column type at a concrete base. -/
theorem claim_C10_witness :
    (storedValOf .tiny (fun _ => 0) 3 [] = 0
      ∧ storedValOf .tiny (fun _ => 0) 3 [48] = 0)
    ∧ decodeFieldOutput 11 (fun _ => []) .tiny 10 [0] 3 0 = .ok [48] :=
  ⟨(claim_C10 .tiny (fun _ => 0) (by decide)).1 3,
   (claim_C10 .tiny (fun _ => 0) (by decide)).2.2.2.2.2 11 (fun _ => []) 10 [0] 3⟩

/-- Claim C5, counterexample: the claim says the block's `dict_size` is
9, but `Dictionary::getSize` counts the origin null byte too, so the
dictionary built from `hi`, `hi`, `world` has size field 10
(`\0hi\0world\0` is nine buffer bytes after the origin null... the
buffer is `\0 h i \0 w o r l d \0`, ten bytes). -/
theorem claim_C5_counterexample :
    dictGetSize (pass1 (fun _ => false) [ColType.varchar]
        [[[104, 105]], [[104, 105]], [[119, 111, 114, 108, 100]]]).2.1.entries = 10
    ∧ (10 : Nat) ≠ 9 :=
  ⟨by decide, by decide⟩

/-- Claim C5 (amended): encoding `hi`, `hi`, `world` under
`[c: varchar(8)]` yields `dict_size = 10` with buffer
`\0hi\0world\0`, column size vector `[1]`, per-row sameness bitmaps
`01`, `00`, `01` with payload bytes `01` for the first row and `04` for
the third, and the assembled block decodes back to the three lines. -/
theorem claim_C5 :
    dictGetSize (pass1 (fun _ => false) [ColType.varchar]
        [[[104, 105]], [[104, 105]], [[119, 111, 114, 108, 100]]]).2.1.entries = 10
    ∧ dictBuffer (pass1 (fun _ => false) [ColType.varchar]
        [[[104, 105]], [[104, 105]], [[119, 111, 114, 108, 100]]]).2.1.entries
      = [0, 104, 105, 0, 119, 111, 114, 108, 100, 0]
    ∧ blockBytes [ColType.varchar]
        (pass1 (fun _ => false) [ColType.varchar]
          [[[104, 105]], [[104, 105]], [[119, 111, 114, 108, 100]]]).2.1.entries
        (pass1 (fun _ => false) [ColType.varchar]
          [[[104, 105]], [[104, 105]], [[119, 111, 114, 108, 100]]]).2.2.1
        [[[104, 105]], [[104, 105]], [[119, 111, 114, 108, 100]]] 3 16384 true
      = [3, 0, 0, 0, 0, 64, 0, 0, 1,
         1, 10, 0, 104, 105, 0, 119, 111, 114, 108, 100, 0,
         1, 0, 0, 0, 0, 0, 0, 0, 0,
         1, 1, 0, 1, 4]
    ∧ decodeBlock 11 (fun _ => []) [ColType.varchar] 1
        [3, 0, 0, 0, 0, 64, 0, 0, 1,
         1, 10, 0, 104, 105, 0, 119, 111, 114, 108, 100, 0,
         1, 0, 0, 0, 0, 0, 0, 0, 0,
         1, 1, 0, 1, 4]
      = .ok ([104, 105, 10, 104, 105, 10, 119, 111, 114, 108, 100, 10], 1, []) := by
  have hd : (pass1 (fun _ => false) [ColType.varchar]
      [[[104, 105]], [[104, 105]], [[119, 111, 114, 108, 100]]]).2.1.entries
      = [[104, 105], [119, 111, 114, 108, 100]] := by decide
  have hstats : (pass1 (fun _ => false) [ColType.varchar]
      [[[104, 105]], [[104, 105]], [[119, 111, 114, 108, 100]]]).2.2.1
      = [⟨true, 0, 0⟩] := by decide
  have hoff : dictBytesInOffset [[104, 105], [119, 111, 114, 108, 100]] = 1 := by
    unfold dictBytesInOffset
    rw [show dictGetSize [[104, 105], [119, 111, 114, 108, 100]] = 10 from by decide]
    unfold bytesFor
    norm_num
  have hdw : dictWriteBytes [[104, 105], [119, 111, 114, 108, 100]]
      = [1, 10, 0, 104, 105, 0, 119, 111, 114, 108, 100, 0] := by
    unfold dictWriteBytes
    rw [show ([[104, 105], [119, 111, 114, 108, 100]] : List (List Nat)).isEmpty
      = false from rfl]
    rw [hoff, show dictGetSize [[104, 105], [119, 111, 114, 108, 100]] = 10 from by decide]
    rfl
  refine ⟨by decide, by decide, ?_, rfl⟩
  rw [hd, hstats]
  simp only [blockBytes]
  rw [hoff, hdw]
  decide

end ZDW




